import Mathlib

/-!
Verification development for the contract-retrieval backend.

The Python sources under `backend/` are shallowly embedded below:
pure functions become Lean functions over `List Char` / `String` / `ℚ`,
dictionaries become association lists that preserve insertion order, and
external effect boundaries (the vector collection, the reranker LLM call)
become explicit inputs.  All definitions are executable.
-/

/-! ## Character and string utilities (Python `str` semantics) -/

/-- Python whitespace characters recognised by `str.split` / `str.strip`
(`\t`, `\n`, `\x0b`, `\x0c`, `\r`, space). -/
def isPySpace (c : Char) : Bool :=
  c = ' ' || c = Char.ofNat 9 || c = Char.ofNat 10 || c = Char.ofNat 11 ||
  c = Char.ofNat 12 || c = Char.ofNat 13

/-- `needle` is a leading block of `hay` (Python `str.startswith`). -/
def startsWithCL : List Char → List Char → Bool
  | [], _ => true
  | _ :: _, [] => false
  | a :: as, b :: bs => a = b && startsWithCL as bs

/-- Python substring containment `needle in hay` over character lists. -/
def containsCL (hay needle : List Char) : Bool :=
  match hay with
  | [] => needle.isEmpty
  | _ :: t => startsWithCL needle hay || containsCL t needle

/-- Python `needle in hay` on strings. -/
def strContains (hay needle : String) : Bool :=
  containsCL hay.data needle.data

/-- Lowercase a character list (ASCII, as used throughout the backend). -/
def lowerCL (l : List Char) : List Char := l.map Char.toLower

/-- Uppercase a character list. -/
def upperCL (l : List Char) : List Char := l.map Char.toUpper

/-- Helper of `pyWords`: `acc` carries the current word reversed. -/
def pyWordsAux : List Char → List Char → List (List Char)
  | [], acc => if acc.isEmpty then [] else [acc.reverse]
  | c :: cs, acc =>
    if isPySpace c then
      if acc.isEmpty then pyWordsAux cs [] else acc.reverse :: pyWordsAux cs []
    else pyWordsAux cs (c :: acc)

/-- Python `str.split()` with no separator: runs of non-whitespace. -/
def pyWords (s : List Char) : List (List Char) := pyWordsAux s []

/-- Lexicographic comparison of character lists by code point,
Python string `<=`. -/
def clLe : List Char → List Char → Bool
  | [], _ => true
  | _ :: _, [] => false
  | a :: as, b :: bs =>
    if a.toNat < b.toNat then true
    else if b.toNat < a.toNat then false
    else clLe as bs

/-- Python string `<=` on `String`. -/
def strLe (a b : String) : Bool := clLe a.data b.data

/-! Basic lemmas about the utilities. -/

theorem startsWithCL_append (w t : List Char) : startsWithCL w (w ++ t) = true := by
  induction w with
  | nil => rfl
  | cons a as ih => simp [startsWithCL, ih]

theorem containsCL_cons_of (t : List Char) (c : Char) (w : List Char)
    (h : containsCL t w = true) : containsCL (c :: t) w = true := by
  simp [containsCL, h]

theorem containsCL_append_left (s t w : List Char)
    (h : containsCL t w = true) : containsCL (s ++ t) w = true := by
  induction s with
  | nil => simpa using h
  | cons a as ih => exact containsCL_cons_of _ _ _ ih

theorem containsCL_self_append (w t : List Char) : containsCL (w ++ t) w = true := by
  cases w with
  | nil => cases t <;> simp [containsCL, List.isEmpty, startsWithCL]
  | cons a as =>
    have h := startsWithCL_append (a :: as) t
    simp [containsCL]
    left
    simpa using h

theorem pyWordsAux_mem_contains (cs : List Char) :
    ∀ acc w, w ∈ pyWordsAux cs acc → containsCL (acc.reverse ++ cs) w = true := by
  induction cs with
  | nil =>
    intro acc w hw
    by_cases hacc : acc.isEmpty
    · simp [pyWordsAux, hacc] at hw
    · simp [pyWordsAux, hacc] at hw
      subst hw
      simpa using containsCL_self_append acc.reverse []
  | cons c cs ih =>
    intro acc w hw
    by_cases hsp : isPySpace c
    · by_cases hacc : acc.isEmpty
      · simp [pyWordsAux, hsp, hacc] at hw
        have := ih [] w hw
        simp at this
        exact containsCL_append_left acc.reverse (c :: cs) w
          (containsCL_cons_of cs c w this)
      · simp [pyWordsAux, hsp, hacc] at hw
        rcases hw with hw | hw
        · subst hw
          simpa using containsCL_self_append acc.reverse (c :: cs)
        · have := ih [] w hw
          simp at this
          exact containsCL_append_left acc.reverse (c :: cs) w
            (containsCL_cons_of cs c w this)
    · simp [pyWordsAux, hsp] at hw
      have := ih (c :: acc) w hw
      simpa [List.append_assoc] using this

/-- A whitespace token of a string is always a character substring of it. -/
theorem pyWords_mem_contains (s w : List Char) (h : w ∈ pyWords s) :
    containsCL s w = true := by
  have := pyWordsAux_mem_contains s [] w h
  simpa using this

/-! ## Wage tables (`backend/ingest/extract_wages.py`) -/

/-- A single wage step in a classification (`WageStep`).  `rates` maps an
effective date to a dollar rate, in insertion order. -/
structure WageStep where
  step_name : String
  hours_required : Option Int
  months_required : Option Int
  rates : List (String × ℚ)
  deriving DecidableEq, Repr

/-- A job classification with its wage progression (`Classification`). -/
structure ClassData where
  name : String
  is_manager : Bool
  steps : List WageStep
  deriving DecidableEq, Repr

/-- The wage data structure saved to `wage_tables.json`: classifications is a
normalized-name-keyed mapping in insertion order. -/
structure WagesData where
  contract_id : String
  effective_dates : List String
  classifications : List (String × ClassData)
  deriving DecidableEq, Repr

/-- Module constant `EFFECTIVE_DATES` of `extract_wages.py`. -/
def EFFECTIVE_DATES : List String := ["2022-01-23", "2023-01-22", "2024-01-21"]

/-- Association-list lookup by key, first match (Python dict access). -/
def lookupA {β : Type} (l : List (String × β)) (k : String) : Option β :=
  match l with
  | [] => none
  | (k₀, v) :: t => if k₀ = k then some v else lookupA t k

/-- One step of the run-collapsing substitution `re.sub(r'[/\s]+', '_', name)`:
the boolean records whether the previous character was part of a run. -/
def collapseRunsAux : Bool → List Char → List Char
  | _, [] => []
  | inRun, c :: cs =>
    if c = '/' || isPySpace c then
      if inRun then collapseRunsAux true cs else '_' :: collapseRunsAux true cs
    else c :: collapseRunsAux false cs

/-- `re.sub(r'[/\s]+', '_', name)`: each maximal run of slashes and
whitespace becomes a single underscore. -/
def collapseRuns (l : List Char) : List Char := collapseRunsAux false l

/-- Characters kept by `re.sub(r'[^A-Z0-9_]', '', name)`. -/
def keepUpperDigit (c : Char) : Bool :=
  ('A' ≤ c && c ≤ 'Z') || ('0' ≤ c && c ≤ '9') || c = '_'

/-- Python `str.strip()`: drop leading and trailing whitespace. -/
def pyStrip (l : List Char) : List Char :=
  ((l.dropWhile isPySpace).reverse.dropWhile isPySpace).reverse

/-- `normalize_classification_name`: strip, uppercase, collapse `[/\s]+`
runs to `_`, drop characters outside `[A-Z0-9_]`, lowercase. -/
def normalize_classification_name (name : String) : String :=
  ⟨lowerCL (((collapseRuns (upperCL (pyStrip name.data))).filter keepUpperDigit))⟩

/-- Classification resolution of `lookup_wage`: exact normalized-key lookup,
then substring match both ways over the classification keys in order. -/
def resolveClass (cls : List (String × ClassData)) (classification : String) :
    Option (String × ClassData) :=
  let norm := normalize_classification_name classification
  match lookupA cls norm with
  | some cd => some (norm, cd)
  | none => cls.find? (fun kv => strContains kv.1 norm || strContains norm kv.1)

/-- The loop-body condition of `lookup_wage`: a step gets assigned as
applicable when its hour threshold (preferred) or else its month threshold
is met.  Steps with both thresholds null never get assigned. -/
def stepSatisfied (hours_worked months_employed : Int) (s : WageStep) : Bool :=
  match s.hours_required with
  | some h => hours_worked ≥ h
  | none =>
    match s.months_required with
    | some m => months_employed ≥ m
    | none => false

/-- The step-selection loop of `lookup_wage`: start from `steps[0]` and
overwrite with every later step whose threshold is met. -/
def selectStep (hours_worked months_employed : Int) (dflt : WageStep)
    (steps : List WageStep) : WageStep :=
  steps.foldl (fun acc s => if stepSatisfied hours_worked months_employed s then s else acc) dflt

/-- The record returned by `lookup_wage`. -/
structure WageResult where
  classification : String
  step : String
  rate : Option ℚ
  effective_date : String
  citation : String
  deriving DecidableEq, Repr

/-- `lookup_wage(wages_data, classification, hours_worked, months_employed,
effective_date)`: defaulting of the effective date, classification
resolution, step selection and rate lookup. -/
def lookup_wage (wages_data : WagesData) (classification : String)
    (hours_worked months_employed : Int) (effective_date : Option String) :
    Option WageResult :=
  let eff := effective_date.getD (EFFECTIVE_DATES.getLastD "")
  match resolveClass wages_data.classifications classification with
  | none => none
  | some (_, class_data) =>
    match class_data.steps with
    | [] => none
    | s0 :: rest =>
      let applicable := selectStep hours_worked months_employed s0 (s0 :: rest)
      some {
        classification := class_data.name
        step := applicable.step_name
        rate := lookupA applicable.rates eff
        effective_date := eff
        citation := "Appendix A" }

/-- The threshold of a step: the hour requirement when present, else the
month requirement (matching the branch priority of the selection loop). -/
def thresholdOf (s : WageStep) : Option Int :=
  match s.hours_required with
  | some h => some h
  | none => s.months_required

/-- Boolean strict threshold order between steps (ascending progression). -/
def thresholdLt (a b : WageStep) : Bool :=
  match thresholdOf a, thresholdOf b with
  | some x, some y => x < y
  | _, _ => false

/-! Selection-loop lemmas. -/

/-- Last element of a list, with a default (Python `list[-1]` with fallback). -/
def lastD {α : Type} (d : α) : List α → α
  | [] => d
  | a :: t => lastD a t

theorem lastD_mem {α : Type} : ∀ (l : List α) (d : α), l ≠ [] → lastD d l ∈ l := by
  intro l
  induction l with
  | nil => intro d h; exact absurd rfl h
  | cons a t ih =>
    intro d _
    cases t with
    | nil => simp [lastD]
    | cons b u =>
      have h := ih a (by simp)
      show lastD a (b :: u) ∈ a :: b :: u
      exact List.mem_cons_of_mem a h

theorem pairwise_lastD_max {α : Type} {R : α → α → Prop} :
    ∀ (l : List α) (d x : α), l.Pairwise R → x ∈ l →
      x = lastD d l ∨ R x (lastD d l) := by
  intro l
  induction l with
  | nil => intro d x _ hx; cases hx
  | cons a t ih =>
    intro d x hp hx
    rw [List.pairwise_cons] at hp
    cases t with
    | nil =>
      rcases List.mem_cons.mp hx with hx | hx
      · subst hx; left; rfl
      · cases hx
    | cons b u =>
      rcases List.mem_cons.mp hx with hx | hx
      · right
        rw [hx]
        exact hp.1 _ (lastD_mem (b :: u) a (by simp))
      · exact ih a x hp.2 hx

theorem selectStep_eq_lastD (hw mw : Int) (steps : List WageStep) :
    ∀ dflt, selectStep hw mw dflt steps
      = lastD dflt (steps.filter (stepSatisfied hw mw)) := by
  induction steps with
  | nil => intro dflt; rfl
  | cons a l ih =>
    intro dflt
    by_cases ha : stepSatisfied hw mw a = true
    · have h1 : (a :: l).filter (stepSatisfied hw mw) = a :: l.filter (stepSatisfied hw mw) := by
        rw [List.filter_cons, if_pos ha]
      have h2 : selectStep hw mw dflt (a :: l) = selectStep hw mw a l := by
        show List.foldl _ (if stepSatisfied hw mw a then a else dflt) l = _
        rw [ha]
        rfl
      rw [h1, h2, ih a]
      rfl
    · have h1 : (a :: l).filter (stepSatisfied hw mw) = l.filter (stepSatisfied hw mw) := by
        rw [List.filter_cons, if_neg ha]
      have h2 : selectStep hw mw dflt (a :: l) = selectStep hw mw dflt l := by
        show List.foldl _ (if stepSatisfied hw mw a then a else dflt) l = _
        rw [Bool.not_eq_true] at ha
        rw [ha]
        rfl
      rw [h1, h2, ih dflt]

/-- The selection loop picks the unique highest satisfied step when the
steps are strictly ascending by threshold and at least one is satisfied. -/
theorem selectStep_highest (hw mw : Int) (s0 : WageStep) (rest : List WageStep)
    (hsort : (s0 :: rest).Pairwise (fun a b => thresholdLt a b = true))
    (hsat : ∃ s ∈ s0 :: rest, stepSatisfied hw mw s = true) :
    ∃ sStar ∈ s0 :: rest, stepSatisfied hw mw sStar = true ∧
      (∀ t ∈ s0 :: rest, stepSatisfied hw mw t = true →
        t = sStar ∨ thresholdLt t sStar = true) ∧
      selectStep hw mw s0 (s0 :: rest) = sStar := by
  obtain ⟨s₁, hs₁mem, hs₁sat⟩ := hsat
  have hflne : (s0 :: rest).filter (stepSatisfied hw mw) ≠ [] := by
    have : s₁ ∈ (s0 :: rest).filter (stepSatisfied hw mw) :=
      List.mem_filter.mpr ⟨hs₁mem, hs₁sat⟩
    intro hemp
    rw [hemp] at this
    cases this
  refine ⟨lastD s0 ((s0 :: rest).filter (stepSatisfied hw mw)), ?_, ?_, ?_, ?_⟩
  · exact (List.mem_filter.mp (lastD_mem _ s0 hflne)).1
  · exact (List.mem_filter.mp (lastD_mem _ s0 hflne)).2
  · intro t ht htsat
    exact pairwise_lastD_max _ s0 t (hsort.filter (stepSatisfied hw mw))
      (List.mem_filter.mpr ⟨ht, htsat⟩)
  · exact selectStep_eq_lastD hw mw (s0 :: rest) s0

/-- C1: whenever the classification resolves, the steps are strictly
ascending by threshold, and some step is satisfied, `lookup_wage` returns a
result whose step is the unique highest satisfied step: it is satisfied, and
every other satisfied step lies strictly below it. -/
theorem lookup_wage_highest_step
    (wd : WagesData) (c : String) (hw mw : Int) (eff : Option String)
    (k : String) (cd : ClassData)
    (hres : resolveClass wd.classifications c = some (k, cd))
    (hsort : cd.steps.Pairwise (fun a b => thresholdLt a b = true))
    (hsat : ∃ s ∈ cd.steps, stepSatisfied hw mw s = true) :
    ∃ sStar ∈ cd.steps, stepSatisfied hw mw sStar = true ∧
      (∀ t ∈ cd.steps, stepSatisfied hw mw t = true →
        t = sStar ∨ thresholdLt t sStar = true) ∧
      ∃ r, lookup_wage wd c hw mw eff = some r ∧
        r.step = sStar.step_name ∧
        r.rate = lookupA sStar.rates (eff.getD (EFFECTIVE_DATES.getLastD "")) := by
  cases hsteps : cd.steps with
  | nil =>
    obtain ⟨s₁, hs₁mem, _⟩ := hsat
    rw [hsteps] at hs₁mem
    cases hs₁mem
  | cons s0 rest =>
    rw [hsteps] at hsort hsat
    obtain ⟨sStar, hmem, hsatS, hmax, hsel⟩ := selectStep_highest hw mw s0 rest hsort hsat
    refine ⟨sStar, hmem, hsatS, hmax, ?_⟩
    refine ⟨{ classification := cd.name, step := sStar.step_name,
              rate := lookupA sStar.rates (eff.getD (EFFECTIVE_DATES.getLastD "")),
              effective_date := eff.getD (EFFECTIVE_DATES.getLastD ""),
              citation := "Appendix A" }, ?_, rfl, rfl⟩
    simp only [lookup_wage, hres, hsteps, hsel]

/-- Concrete classification for the C1 witness: an hour-based progression
(the `Start` row parses to both thresholds 0, as `parse_hours` and
`parse_months` both return 0 for `"Start"`). -/
def apcClass : ClassData :=
  { name := "ALL PURPOSE CLERK", is_manager := false,
    steps :=
      [ { step_name := "Start", hours_required := some 0, months_required := some 0,
          rates := [("2022-01-23", 16), ("2023-01-22", 17), ("2024-01-21", 18)] },
        { step_name := "After 520 hours", hours_required := some 520, months_required := none,
          rates := [("2022-01-23", 17), ("2023-01-22", 18), ("2024-01-21", 19)] },
        { step_name := "After 1040 hours", hours_required := some 1040, months_required := none,
          rates := [("2022-01-23", 18), ("2023-01-22", 19), ("2024-01-21", 20)] } ] }

/-- Concrete wage table used by the C1 and C2 witnesses. -/
def wdC1 : WagesData :=
  { contract_id := "local7_safeway_clerks_2022",
    effective_dates := EFFECTIVE_DATES,
    classifications := [("all_purpose_clerk", apcClass)] }

/-- C1 witness: the highest-step theorem applied to the concrete table at
600 worked hours. -/
theorem lookup_wage_highest_step_witness :
    ∃ sStar ∈ apcClass.steps, stepSatisfied 600 0 sStar = true ∧
      (∀ t ∈ apcClass.steps, stepSatisfied 600 0 t = true →
        t = sStar ∨ thresholdLt t sStar = true) ∧
      ∃ r, lookup_wage wdC1 "All Purpose Clerk" 600 0 none = some r ∧
        r.step = sStar.step_name ∧
        r.rate = lookupA sStar.rates ((none : Option String).getD (EFFECTIVE_DATES.getLastD "")) :=
  lookup_wage_highest_step wdC1 "All Purpose Clerk" 600 0 none
    "all_purpose_clerk" apcClass (by decide) (by decide) (by decide)

/-- The effective-date selection described by the spec (`latest ≤ request
date`), stated over the table's effective dates with ISO string order. -/
def latestLeDate (dates : List String) (req : String) : Option String :=
  dates.foldl (fun acc d =>
    if strLe d req then
      match acc with
      | none => some d
      | some m => if strLe m d then some d else some m
    else acc) none

/-- C2 counterexample: `lookup_wage` does not select the latest table date
`≤` the request date; a mid-term request date is used verbatim as the key
into the rates mapping, so the rate comes back absent instead of the
2023 rate. -/
theorem lookup_wage_effective_date_cex :
    latestLeDate wdC1.effective_dates "2023-06-01" = some "2023-01-22" ∧
    (lookup_wage wdC1 "all_purpose_clerk" 0 0 (some "2023-06-01")).map
      WageResult.effective_date = some "2023-06-01" ∧
    ((lookup_wage wdC1 "all_purpose_clerk" 0 0 (some "2023-06-01")).map
      WageResult.effective_date ≠ some "2023-01-22") ∧
    (lookup_wage wdC1 "all_purpose_clerk" 0 0 (some "2023-06-01")).map
      WageResult.rate = some none := by
  decide

/-- C2 (amended): a supplied request date is used verbatim as the key — the
result's effective_date is exactly the supplied date and the rate is the
selected step's rate at exactly that date (absent when the table has no
entry for it); with no date supplied the module constant's latest date is
used. -/
theorem lookup_wage_effective_date_amended
    (wd : WagesData) (c : String) (hw mw : Int) (d : String) (r : WageResult) :
    (lookup_wage wd c hw mw (some d) = some r →
      r.effective_date = d ∧
      ∃ k cd, resolveClass wd.classifications c = some (k, cd) ∧
        ∃ s0 rest, cd.steps = s0 :: rest ∧
          r.rate = lookupA (selectStep hw mw s0 (s0 :: rest)).rates d) ∧
    (lookup_wage wd c hw mw none = some r →
      r.effective_date = EFFECTIVE_DATES.getLastD "") := by
  constructor
  · intro h
    cases hres : resolveClass wd.classifications c with
    | none => rw [lookup_wage, hres] at h; cases h
    | some kcd =>
      obtain ⟨k, cd⟩ := kcd
      cases hsteps : cd.steps with
      | nil =>
        rw [lookup_wage, hres] at h
        simp only [hsteps] at h
        cases h
      | cons s0 rest =>
        rw [lookup_wage, hres] at h
        simp only [hsteps] at h
        injection h with h
        refine ⟨?_, k, cd, rfl, s0, rest, hsteps, ?_⟩
        · rw [← h]
          rfl
        · rw [← h]
          rfl
  · intro h
    cases hres : resolveClass wd.classifications c with
    | none => rw [lookup_wage, hres] at h; cases h
    | some kcd =>
      obtain ⟨k, cd⟩ := kcd
      cases hsteps : cd.steps with
      | nil =>
        rw [lookup_wage, hres] at h
        simp only [hsteps] at h
        cases h
      | cons s0 rest =>
        rw [lookup_wage, hres] at h
        simp only [hsteps] at h
        injection h with h
        rw [← h]
        rfl

/-- C2 witness: the amended statement applied at a concrete supplied date
and at the default. -/
theorem lookup_wage_effective_date_amended_witness :
    (lookup_wage wdC1 "all_purpose_clerk" 0 0 (some "2023-01-22")
        = some { classification := "ALL PURPOSE CLERK", step := "Start",
                 rate := some 17, effective_date := "2023-01-22",
                 citation := "Appendix A" }) ∧
    ({ classification := "ALL PURPOSE CLERK", step := "Start",
       rate := some 17, effective_date := "2023-01-22",
       citation := "Appendix A" : WageResult }.effective_date = "2023-01-22" ∧
      ∃ k cd, resolveClass wdC1.classifications "all_purpose_clerk" = some (k, cd) ∧
        ∃ s0 rest, cd.steps = s0 :: rest ∧
          (some 17 : Option ℚ) = lookupA (selectStep 0 0 s0 (s0 :: rest)).rates "2023-01-22") :=
  ⟨by decide,
   (lookup_wage_effective_date_amended wdC1 "all_purpose_clerk" 0 0 "2023-01-22"
      { classification := "ALL PURPOSE CLERK", step := "Start",
        rate := some 17, effective_date := "2023-01-22",
        citation := "Appendix A" }).1 (by decide)⟩

/-! ## Multi-angle merge (`HybridRetriever.multi_angle_retrieve`,
`backend/retrieval/router.py` lines 892–907) -/

/-- In-place value update of an association list (`all_chunks[idx] = chunk_copy`
at the index holding the chunk id): position preserved, value replaced. -/
def updateA (st : List (String × ℚ)) (k : String) (x : ℚ) : List (String × ℚ) :=
  match st with
  | [] => []
  | (k₀, v) :: t => if k₀ = k then (k₀, x) :: t else (k₀, v) :: updateA t k x

/-- One merge step of `multi_angle_retrieve`: a new chunk id is appended;
a seen chunk id is replaced only when the incoming similarity is strictly
greater than the stored one. -/
def merge1 (st : List (String × ℚ)) (c : String × ℚ) : List (String × ℚ) :=
  match lookupA st c.1 with
  | none => st ++ [c]
  | some v => if v < c.2 then updateA st c.1 c.2 else st

/-- The cross-angle merge: fold the per-angle result lists, in order, into
the (chunk id, best similarity) association list. -/
def multi_angle_merge (angles : List (List (String × ℚ))) : List (String × ℚ) :=
  angles.flatten.foldl merge1 []

/-- Max combination on optional scores. -/
def omaxO : Option ℚ → Option ℚ → Option ℚ
  | none, b => b
  | some a, none => some a
  | some a, some b => some (max a b)

/-- The best score of a chunk id across a stream of results. -/
def maxOcc (l : List (String × ℚ)) (k : String) : Option ℚ :=
  l.foldl (fun acc c => if c.1 = k then omaxO acc (some c.2) else acc) none

theorem omaxO_none_right (a : Option ℚ) : omaxO a none = a := by
  cases a <;> rfl

theorem omaxO_assoc (a b c : Option ℚ) : omaxO (omaxO a b) c = omaxO a (omaxO b c) := by
  cases a <;> cases b <;> cases c <;> simp [omaxO, max_assoc]

theorem omaxO_comm (a b : Option ℚ) : omaxO a b = omaxO b a := by
  cases a <;> cases b <;> simp [omaxO, max_comm]

theorem maxOcc_foldl (k : String) (l : List (String × ℚ)) :
    ∀ init, l.foldl (fun acc c => if c.1 = k then omaxO acc (some c.2) else acc) init
      = omaxO init (maxOcc l k) := by
  induction l with
  | nil => intro init; exact (omaxO_none_right init).symm
  | cons c t ih =>
    intro init
    show List.foldl _ (if c.1 = k then omaxO init (some c.2) else init) t = _
    have hm : maxOcc (c :: t) k
        = omaxO (if c.1 = k then omaxO none (some c.2) else none) (maxOcc t k) := by
      show List.foldl _ (if c.1 = k then omaxO none (some c.2) else none) t = _
      exact ih _
    rw [hm]
    by_cases hc : c.1 = k
    · rw [if_pos hc, if_pos hc, ih (omaxO init (some c.2)), ← omaxO_assoc]
      rfl
    · rw [if_neg hc, if_neg hc, ih init]
      rfl

theorem lookupA_none_iff {β : Type} (st : List (String × β)) (k : String) :
    lookupA st k = none ↔ k ∉ st.map Prod.fst := by
  induction st with
  | nil => simp [lookupA]
  | cons c t ih =>
    obtain ⟨k₀, v⟩ := c
    by_cases h : k₀ = k
    · simp [lookupA, h]
    · simp [lookupA, h, ih, Ne.symm h]

theorem lookupA_append_single {β : Type} (st : List (String × β)) (c : String × β)
    (k : String) :
    lookupA (st ++ [c]) k
      = match lookupA st k with
        | some v => some v
        | none => if c.1 = k then some c.2 else none := by
  induction st with
  | nil => rfl
  | cons d t ih =>
    obtain ⟨k₀, v⟩ := d
    by_cases h : k₀ = k
    · simp [lookupA, h]
    · simpa [lookupA, h] using ih

theorem lookupA_updateA_self (st : List (String × ℚ)) (k : String) (x : ℚ)
    (h : (lookupA st k).isSome) : lookupA (updateA st k x) k = some x := by
  induction st with
  | nil => simp [lookupA] at h
  | cons c t ih =>
    obtain ⟨k₀, v⟩ := c
    by_cases hk : k₀ = k
    · simp [lookupA, updateA, hk]
    · simp only [lookupA, if_neg hk] at h
      simp [lookupA, updateA, hk, ih h]

theorem lookupA_updateA_other (st : List (String × ℚ)) (k k₂ : String) (x : ℚ)
    (h : k₂ ≠ k) : lookupA (updateA st k x) k₂ = lookupA st k₂ := by
  induction st with
  | nil => rfl
  | cons c t ih =>
    obtain ⟨k₀, v⟩ := c
    by_cases hk : k₀ = k
    · have hknk2 : k ≠ k₂ := fun hh => h hh.symm
      simp [updateA, lookupA, hk, hknk2]
    · by_cases hk2 : k₀ = k₂
      · simp [updateA, lookupA, hk, hk2, h]
      · simp [updateA, lookupA, hk, hk2, ih]

theorem keys_updateA (st : List (String × ℚ)) (k : String) (x : ℚ) :
    (updateA st k x).map Prod.fst = st.map Prod.fst := by
  induction st with
  | nil => rfl
  | cons c t ih =>
    obtain ⟨k₀, v⟩ := c
    by_cases hk : k₀ = k <;> simp [updateA, hk, ih]

theorem keys_merge1_nodup (st : List (String × ℚ)) (c : String × ℚ)
    (h : (st.map Prod.fst).Nodup) : ((merge1 st c).map Prod.fst).Nodup := by
  unfold merge1
  cases hl : lookupA st c.1 with
  | none =>
    simp only [List.map_append, List.map_cons, List.map_nil]
    rw [List.nodup_append]
    refine ⟨h, by simp, ?_⟩
    intro a ha hb
    simp at hb
    subst hb
    exact ((lookupA_none_iff st c.1).mp hl) ha
  | some v =>
    by_cases hv : v < c.2
    · simp only [if_pos hv]
      rw [keys_updateA]
      exact h
    · simp only [if_neg hv]
      exact h

theorem maxOcc_cons (c : String × ℚ) (l : List (String × ℚ)) (k : String) :
    maxOcc (c :: l) k = omaxO (if c.1 = k then some c.2 else none) (maxOcc l k) := by
  show List.foldl _ (if c.1 = k then omaxO none (some c.2) else none) l = _
  rw [maxOcc_foldl]
  by_cases hc : c.1 = k <;> simp [hc, omaxO]

theorem maxOcc_perm {l l' : List (String × ℚ)} (hp : l.Perm l') (k : String) :
    maxOcc l k = maxOcc l' k := by
  induction hp with
  | nil => rfl
  | cons x _ ih => rw [maxOcc_cons, maxOcc_cons, ih]
  | swap x y l =>
    rw [maxOcc_cons, maxOcc_cons, maxOcc_cons, maxOcc_cons,
      ← omaxO_assoc, ← omaxO_assoc,
      omaxO_comm (if y.1 = k then some y.2 else none) (if x.1 = k then some x.2 else none)]
  | trans _ _ ih1 ih2 => rw [ih1, ih2]

theorem lookupA_merge1 (st : List (String × ℚ)) (c : String × ℚ) (k : String) :
    lookupA (merge1 st c) k
      = omaxO (lookupA st k) (if c.1 = k then some c.2 else none) := by
  by_cases hc : c.1 = k
  · subst hc
    unfold merge1
    cases hl : lookupA st c.1 with
    | none =>
      rw [lookupA_append_single, hl]
      simp [omaxO]
    | some v =>
      show lookupA (if v < c.2 then updateA st c.1 c.2 else st) c.1 = _
      by_cases hv : v < c.2
      · rw [if_pos hv, lookupA_updateA_self st c.1 c.2 (by rw [hl]; rfl)]
        simp [omaxO, max_eq_right (le_of_lt hv)]
      · rw [if_neg hv, hl]
        simp [omaxO, max_eq_left (le_of_not_lt hv)]
  · rw [if_neg hc, omaxO_none_right]
    unfold merge1
    cases hl : lookupA st c.1 with
    | none =>
      rw [lookupA_append_single]
      cases hk : lookupA st k with
      | none => simp [hc]
      | some v => simp
    | some v =>
      show lookupA (if v < c.2 then updateA st c.1 c.2 else st) k = _
      by_cases hv : v < c.2
      · rw [if_pos hv]
        exact lookupA_updateA_other st c.1 k c.2 (fun hh => hc hh.symm)
      · rw [if_neg hv]

theorem lookupA_mergeFold (l : List (String × ℚ)) (k : String) :
    ∀ st, lookupA (l.foldl merge1 st) k = omaxO (lookupA st k) (maxOcc l k) := by
  induction l with
  | nil => intro st; exact (omaxO_none_right _).symm
  | cons c t ih =>
    intro st
    show lookupA (t.foldl merge1 (merge1 st c)) k = _
    rw [ih (merge1 st c), lookupA_merge1, maxOcc_cons, ← omaxO_assoc]

theorem keys_mergeFold_nodup (l : List (String × ℚ)) :
    ∀ st, ((st.map Prod.fst).Nodup) → (((l.foldl merge1 st).map Prod.fst).Nodup) := by
  induction l with
  | nil => intro st h; exact h
  | cons c t ih =>
    intro st h
    exact ih (merge1 st c) (keys_merge1_nodup st c h)

theorem mem_iff_lookupA {β : Type} (st : List (String × β))
    (h : (st.map Prod.fst).Nodup) (k : String) (v : β) :
    (k, v) ∈ st ↔ lookupA st k = some v := by
  induction st with
  | nil => simp [lookupA]
  | cons c t ih =>
    obtain ⟨k₀, v₀⟩ := c
    simp only [List.map_cons, List.nodup_cons] at h
    by_cases hk : k₀ = k
    · subst hk
      show (k₀, v) ∈ (k₀, v₀) :: t ↔ (if k₀ = k₀ then some v₀ else lookupA t k₀) = some v
      rw [if_pos rfl]
      constructor
      · intro hmem
        rcases List.mem_cons.mp hmem with heq | hmem
        · injection heq with h1 h2
          rw [h2]
        · exact absurd (List.mem_map_of_mem Prod.fst hmem) h.1
      · intro hv
        injection hv with hv
        rw [← hv]
        exact List.mem_cons_self _ _
    · show (k, v) ∈ (k₀, v₀) :: t ↔ (if k₀ = k then some v₀ else lookupA t k) = some v
      rw [if_neg hk, ← ih h.2]
      constructor
      · intro hmem
        rcases List.mem_cons.mp hmem with heq | hmem
        · injection heq with h1 h2
          exact absurd h1.symm hk
        · exact hmem
      · exact fun hmem => List.mem_cons_of_mem _ hmem

/-- C3: the cross-angle merge keeps the maximum similarity per chunk id, so
permuting the per-angle result lists leaves the merged multiset of
(chunk id, final score) pairs unchanged. -/
theorem multi_angle_merge_order_independent
    (angles angles' : List (List (String × ℚ))) (hp : angles.Perm angles') :
    (multi_angle_merge angles : Multiset (String × ℚ)) = multi_angle_merge angles' := by
  rw [Multiset.coe_eq_coe]
  have hj : angles.flatten.Perm angles'.flatten := hp.flatten
  have hn1 : ((multi_angle_merge angles).map Prod.fst).Nodup :=
    keys_mergeFold_nodup angles.flatten [] (by simp)
  have hn2 : ((multi_angle_merge angles').map Prod.fst).Nodup :=
    keys_mergeFold_nodup angles'.flatten [] (by simp)
  rw [List.perm_ext_iff_of_nodup (List.Nodup.of_map Prod.fst hn1)
    (List.Nodup.of_map Prod.fst hn2)]
  rintro ⟨k, v⟩
  rw [mem_iff_lookupA _ hn1, mem_iff_lookupA _ hn2]
  show lookupA (angles.flatten.foldl merge1 []) k = some v
    ↔ lookupA (angles'.flatten.foldl merge1 []) k = some v
  rw [lookupA_mergeFold, lookupA_mergeFold]
  show omaxO none (maxOcc angles.flatten k) = some v
    ↔ omaxO none (maxOcc angles'.flatten k) = some v
  rw [maxOcc_perm hj]

/-- C3 witness: the order-independence theorem applied to two concrete
permuted angle lists. -/
theorem multi_angle_merge_order_independent_witness :
    ([[("a1", (3 : ℚ)), ("a2", 2)], [("a2", 5)], [("a1", 1)]] :
        List (List (String × ℚ))).Perm
      [[("a2", 5)], [("a1", 1)], [("a1", 3), ("a2", 2)]] ∧
    (multi_angle_merge [[("a1", (3 : ℚ)), ("a2", 2)], [("a2", 5)], [("a1", 1)]] :
        Multiset (String × ℚ))
      = multi_angle_merge [[("a2", 5)], [("a1", 1)], [("a1", 3), ("a2", 2)]] :=
  ⟨by decide,
   multi_angle_merge_order_independent
     [[("a1", (3 : ℚ)), ("a2", 2)], [("a2", 5)], [("a1", 1)]]
     [[("a2", 5)], [("a1", 1)], [("a1", 3), ("a2", 2)]] (by decide)⟩

/-! ## Reciprocal Rank Fusion (`backend/retrieval/hybrid_search.py`,
`reciprocal_rank_fusion`) -/

/-- `rrf_scores[doc_id] += x` on a `defaultdict(float)`: first touch appends
the key with value `x`, later touches add in place. -/
def addAssoc (st : List (String × ℚ)) (k : String) (x : ℚ) : List (String × ℚ) :=
  match st with
  | [] => [(k, x)]
  | (k₀, v) :: t => if k₀ = k then (k₀, v + x) :: t else (k₀, v) :: addAssoc t k x

/-- The inner loop of `reciprocal_rank_fusion` for one ranking: walk the
ranking with 1-based ranks, adding `weight / (k + rank)` per occurrence. -/
def rrfAddRanking (kC w : ℚ) : List (String × ℚ) → List (String × ℚ) → Nat →
    List (String × ℚ)
  | st, [], _ => st
  | st, c :: t, rank => rrfAddRanking kC w (addAssoc st c.1 (w / (kC + rank))) t (rank + 1)

/-- The score-accumulation phase of `reciprocal_rank_fusion`: the
`defaultdict` contents before the final sort, in key first-touch order. -/
def rrfFold (rankings : List (List (String × ℚ))) (kC : ℚ) (weights : List ℚ) :
    List (String × ℚ) :=
  (rankings.zip weights).foldl (fun st rw => rrfAddRanking kC rw.2 st rw.1 1) []

/-- `reciprocal_rank_fusion(rankings, k, weights)`: accumulate weighted
reciprocal ranks per document, then sort by score descending (stable). -/
def reciprocal_rank_fusion (rankings : List (List (String × ℚ))) (kC : ℚ)
    (weights : List ℚ) : List (String × ℚ) :=
  (rrfFold rankings kC weights).mergeSort (fun a b => decide (b.2 ≤ a.2))

/-- A document's fused score: its entry in the accumulated scores, 0 when
absent. -/
def rrfScore (rankings : List (List (String × ℚ))) (weights : List ℚ)
    (d : String) : ℚ :=
  (lookupA (rrfFold rankings 60 weights) d).getD 0

/-- Total reciprocal-rank mass document `d` receives from a ranking walked
from 1-based rank `rank`. -/
def occSum (kC w : ℚ) (d : String) : List (String × ℚ) → Nat → ℚ
  | [], _ => 0
  | c :: t, rank => (if c.1 = d then w / (kC + (rank : ℚ)) else 0) + occSum kC w d t (rank + 1)

/-- The claimed per-list contribution of a singly-occurring document. -/
def rankTerm (l : List (String × ℚ)) (w : ℚ) (d : String) : ℚ :=
  if d ∈ l.map Prod.fst then w / (60 + ((l.findIdx (fun c => c.1 = d) + 1 : Nat) : ℚ)) else 0

theorem lookupA_addAssoc_self (st : List (String × ℚ)) (k : String) (x : ℚ) :
    lookupA (addAssoc st k x) k = some ((lookupA st k).getD 0 + x) := by
  induction st with
  | nil => simp [addAssoc, lookupA]
  | cons c t ih =>
    obtain ⟨k₀, v⟩ := c
    by_cases hk : k₀ = k
    · simp [addAssoc, lookupA, hk]
    · simp [addAssoc, lookupA, hk, ih]

theorem lookupA_addAssoc_other (st : List (String × ℚ)) (k k₂ : String) (x : ℚ)
    (h : k₂ ≠ k) : lookupA (addAssoc st k x) k₂ = lookupA st k₂ := by
  induction st with
  | nil =>
    show (if k = k₂ then some x else lookupA [] k₂) = lookupA [] k₂
    rw [if_neg (fun hh : k = k₂ => h hh.symm)]
  | cons c t ih =>
    obtain ⟨k₀, v⟩ := c
    by_cases hk : k₀ = k
    · subst hk
      show lookupA (if k₀ = k₀ then (k₀, v + x) :: t else (k₀, v) :: addAssoc t k₀ x) k₂
        = lookupA ((k₀, v) :: t) k₂
      rw [if_pos rfl]
      show (if k₀ = k₂ then some (v + x) else lookupA t k₂)
        = (if k₀ = k₂ then some v else lookupA t k₂)
      rw [if_neg (fun hh : k₀ = k₂ => h hh.symm), if_neg (fun hh : k₀ = k₂ => h hh.symm)]
    · show lookupA (if k₀ = k then (k₀, v + x) :: t else (k₀, v) :: addAssoc t k x) k₂
        = lookupA ((k₀, v) :: t) k₂
      rw [if_neg hk]
      show (if k₀ = k₂ then some v else lookupA (addAssoc t k x) k₂)
        = (if k₀ = k₂ then some v else lookupA t k₂)
      rw [ih]

theorem occSum_zero (kC w : ℚ) (d : String) :
    ∀ (l : List (String × ℚ)) (rank : Nat), d ∉ l.map Prod.fst →
      occSum kC w d l rank = 0 := by
  intro l
  induction l with
  | nil => intro rank _; rfl
  | cons c t ih =>
    intro rank h
    simp only [List.map_cons, List.mem_cons] at h
    push_neg at h
    show (if c.1 = d then w / (kC + (rank : ℚ)) else 0) + occSum kC w d t (rank + 1) = 0
    rw [if_neg (fun hh => h.1 hh.symm), ih (rank + 1) h.2, add_zero]

/-- Per-ranking accumulation invariant: after one ranking is folded in, a
document's entry grows by exactly its reciprocal-rank mass in the ranking. -/
theorem lookupA_rrfAddRanking (kC w : ℚ) (d : String) :
    ∀ (l : List (String × ℚ)) (st : List (String × ℚ)) (rank : Nat),
      lookupA (rrfAddRanking kC w st l rank) d
        = match lookupA st d with
          | some v => some (v + occSum kC w d l rank)
          | none =>
            if d ∈ l.map Prod.fst then some (occSum kC w d l rank) else none := by
  intro l
  induction l with
  | nil =>
    intro st rank
    cases h : lookupA st d <;> simp [rrfAddRanking, occSum, h]
  | cons c t ih =>
    intro st rank
    show lookupA (rrfAddRanking kC w (addAssoc st c.1 (w / (kC + rank))) t (rank + 1)) d = _
    rw [ih (addAssoc st c.1 (w / (kC + rank))) (rank + 1)]
    by_cases hc : c.1 = d
    · subst hc
      have hocc : occSum kC w c.1 (c :: t) rank
          = w / (kC + (rank : ℚ)) + occSum kC w c.1 t (rank + 1) := by
        show (if c.1 = c.1 then _ else _) + _ = _
        rw [if_pos rfl]
      rw [lookupA_addAssoc_self]
      cases h : lookupA st c.1 with
      | some v =>
        show some (v + w / (kC + (rank : ℚ)) + occSum kC w c.1 t (rank + 1))
          = some (v + occSum kC w c.1 (c :: t) rank)
        rw [hocc, add_assoc]
      | none =>
        have hmem : c.1 ∈ (c :: t).map Prod.fst := by simp
        show some ((0 : ℚ) + w / (kC + (rank : ℚ)) + occSum kC w c.1 t (rank + 1))
          = if c.1 ∈ (c :: t).map Prod.fst then some (occSum kC w c.1 (c :: t) rank) else none
        rw [if_pos hmem, hocc, zero_add]
    · rw [lookupA_addAssoc_other st c.1 d _ (fun hh => hc hh.symm)]
      have hocc : occSum kC w d (c :: t) rank = occSum kC w d t (rank + 1) := by
        show (if c.1 = d then _ else _) + _ = _
        rw [if_neg hc, zero_add]
      cases h : lookupA st d with
      | some v =>
        show some (v + occSum kC w d t (rank + 1)) = some (v + occSum kC w d (c :: t) rank)
        rw [hocc]
      | none =>
        show (if d ∈ t.map Prod.fst then some (occSum kC w d t (rank + 1)) else none)
          = if d ∈ (c :: t).map Prod.fst then some (occSum kC w d (c :: t) rank) else none
        rw [hocc]
        by_cases hm : d ∈ t.map Prod.fst
        · rw [if_pos hm, if_pos (by simp [hm])]
        · rw [if_neg hm, if_neg (by
            simp only [List.map_cons, List.mem_cons, not_or]
            exact ⟨fun hh => hc hh.symm, hm⟩)]

theorem occSum_single (kC w : ℚ) (d : String) :
    ∀ (l : List (String × ℚ)) (rank : Nat),
      (l.map Prod.fst).count d = 1 →
      occSum kC w d l rank
        = w / (kC + (rank : ℚ) + ((l.findIdx (fun c => c.1 = d) : ℕ) : ℚ)) := by
  intro l
  induction l with
  | nil => intro rank h; simp at h
  | cons c t ih =>
    intro rank h
    show (if c.1 = d then w / (kC + (rank : ℚ)) else 0) + occSum kC w d t (rank + 1) = _
    by_cases hc : c.1 = d
    · have hct : (t.map Prod.fst).count d = 0 := by
        rw [List.map_cons, List.count_cons] at h
        simp [hc] at h
        exact h
      have hz : occSum kC w d t (rank + 1) = 0 :=
        occSum_zero kC w d t (rank + 1) (List.count_eq_zero.mp hct)
      have hidx : (c :: t).findIdx (fun c => c.1 = d) = 0 := by
        rw [List.findIdx_cons]
        simp [hc]
      rw [if_pos hc, hz, add_zero, hidx]
      norm_num
    · have hct : (t.map Prod.fst).count d = 1 := by
        rw [List.map_cons, List.count_cons] at h
        simpa [hc] using h
      have hidx : (c :: t).findIdx (fun c => c.1 = d)
          = t.findIdx (fun c => c.1 = d) + 1 := by
        rw [List.findIdx_cons]
        simp [hc]
      rw [if_neg hc, zero_add, ih (rank + 1) hct, hidx]
      push_cast
      ring_nf

theorem occSum_append (kC w : ℚ) (d : String) :
    ∀ (xs ys : List (String × ℚ)) (rank : Nat),
      occSum kC w d (xs ++ ys) rank
        = occSum kC w d xs rank + occSum kC w d ys (rank + xs.length) := by
  intro xs
  induction xs with
  | nil => intro ys rank; simp [occSum]
  | cons c t ih =>
    intro ys rank
    show (if c.1 = d then w / (kC + (rank : ℚ)) else 0) + occSum kC w d (t ++ ys) (rank + 1)
      = ((if c.1 = d then w / (kC + (rank : ℚ)) else 0) + occSum kC w d t (rank + 1))
        + occSum kC w d ys (rank + (c :: t).length)
    rw [ih ys (rank + 1)]
    have hlen : rank + 1 + t.length = rank + (c :: t).length := by
      rw [List.length_cons]
      omega
    rw [hlen, ← add_assoc]

theorem take_no_occ (d : String) :
    ∀ (l : List (String × ℚ)) (p : Nat),
      p ≤ l.findIdx (fun c => c.1 = d) → d ∉ (l.take p).map Prod.fst := by
  intro l
  induction l with
  | nil => intro p _; simp
  | cons c t ih =>
    intro p hp
    cases p with
    | zero => simp
    | succ q =>
      by_cases hc : c.1 = d
      · rw [List.findIdx_cons] at hp
        simp [hc] at hp
      · rw [List.findIdx_cons] at hp
        simp [hc] at hp
        have hq : q ≤ t.findIdx (fun c => c.1 = d) := by omega
        show d ∉ (c :: t.take q).map Prod.fst
        simp only [List.map_cons, List.mem_cons, not_or]
        exact ⟨fun hh => hc hh.symm, ih q hq⟩

/-- The fused score splits into the two rankings' reciprocal-rank masses. -/
theorem rrfScore_eq (l1 l2 : List (String × ℚ)) (w1 w2 : ℚ) (d : String) :
    rrfScore [l1, l2] [w1, w2] d = occSum 60 w1 d l1 1 + occSum 60 w2 d l2 1 := by
  have hin : lookupA (rrfAddRanking 60 w1 [] l1 1) d
      = if d ∈ l1.map Prod.fst then some (occSum 60 w1 d l1 1) else none := by
    rw [lookupA_rrfAddRanking]
    rfl
  show (lookupA (rrfAddRanking 60 w2 (rrfAddRanking 60 w1 [] l1 1) l2 1) d).getD 0 = _
  rw [lookupA_rrfAddRanking, hin]
  by_cases h1 : d ∈ l1.map Prod.fst
  · rw [if_pos h1]
    rfl
  · rw [if_neg h1, occSum_zero 60 w1 d l1 1 h1, zero_add]
    by_cases h2 : d ∈ l2.map Prod.fst
    · rw [if_pos h2]
      rfl
    · rw [if_neg h2, occSum_zero 60 w2 d l2 1 h2]
      rfl

theorem div_den_mono (w a b : ℚ) (hw : 0 ≤ w) (ha : 0 < a) (hab : a ≤ b) :
    w / b ≤ w / a := by
  gcongr

/-- A singly-counted document's mass is the claimed per-list term. -/
theorem occSum_rankTerm (w : ℚ) (d : String) (l : List (String × ℚ))
    (h : (l.map Prod.fst).count d ≤ 1) : occSum 60 w d l 1 = rankTerm l w d := by
  rcases Nat.le_one_iff_eq_zero_or_eq_one.mp h with h0 | h1
  · have hnm : d ∉ l.map Prod.fst := List.count_eq_zero.mp h0
    rw [occSum_zero 60 w d l 1 hnm, rankTerm, if_neg hnm]
  · have hm : d ∈ l.map Prod.fst := by
      by_contra hnm
      rw [List.count_eq_zero.mpr hnm] at h1
      cases h1
    rw [occSum_single 60 w d l 1 h1, rankTerm, if_pos hm]
    push_cast
    ring_nf

/-- Improving a singly-occurring document's rank in a ranking cannot
decrease its reciprocal-rank mass. -/
theorem occSum_rank_mono (w : ℚ) (d : String) (l l' : List (String × ℚ))
    (hw : 0 ≤ w) (h : (l.map Prod.fst).count d = 1)
    (h' : (l'.map Prod.fst).count d = 1)
    (hle : l'.findIdx (fun c => c.1 = d) ≤ l.findIdx (fun c => c.1 = d)) :
    occSum 60 w d l 1 ≤ occSum 60 w d l' 1 := by
  rw [occSum_single 60 w d l 1 h, occSum_single 60 w d l' 1 h']
  apply div_den_mono _ _ _ hw
  · positivity
  · have hcast : ((l'.findIdx (fun c => c.1 = d) : ℕ) : ℚ)
        ≤ ((l.findIdx (fun c => c.1 = d) : ℕ) : ℚ) := by exact_mod_cast hle
    linarith

/-- Inserting a higher-ranked duplicate of a singly-occurring document into
a ranking cannot decrease its reciprocal-rank mass. -/
theorem occSum_dup_mono (w : ℚ) (d : String) (l : List (String × ℚ))
    (p : Nat) (s : ℚ) (hw : 0 ≤ w) (h : (l.map Prod.fst).count d = 1)
    (hp : p ≤ l.findIdx (fun c => c.1 = d)) :
    occSum 60 w d l 1 ≤ occSum 60 w d (l.take p ++ (d, s) :: l.drop p) 1 := by
  have hmemk : d ∈ l.map Prod.fst := by
    by_contra hnm
    rw [List.count_eq_zero.mpr hnm] at h
    cases h
  obtain ⟨c, hcmem, hceq⟩ := List.mem_map.mp hmemk
  have hlt : l.findIdx (fun c => c.1 = d) < l.length :=
    List.findIdx_lt_length_of_exists ⟨c, hcmem, by simp [hceq]⟩
  have hplen : p ≤ l.length := le_of_lt (lt_of_le_of_lt hp hlt)
  have hxslen : (l.take p).length = p := by
    rw [List.length_take]
    exact min_eq_left hplen
  have hxs0 : d ∉ (l.take p).map Prod.fst := take_no_occ d l p hp
  have hcnt_xs : ((l.take p).map Prod.fst).count d = 0 := List.count_eq_zero.mpr hxs0
  have hcnt_split :
      ((l.take p).map Prod.fst).count d + ((l.drop p).map Prod.fst).count d = 1 := by
    rw [← List.count_append, ← List.map_append, List.take_append_drop]
    exact h
  have hcnt_ys : ((l.drop p).map Prod.fst).count d = 1 := by omega
  have hL : occSum 60 w d l 1 = occSum 60 w d (l.drop p) (1 + p) := by
    conv_lhs => rw [← List.take_append_drop p l]
    rw [occSum_append, occSum_zero 60 w d _ 1 hxs0, hxslen, zero_add]
  have hR : occSum 60 w d (l.take p ++ (d, s) :: l.drop p) 1
      = w / (60 + ((1 + p : ℕ) : ℚ)) + occSum 60 w d (l.drop p) (1 + p + 1) := by
    rw [occSum_append, occSum_zero 60 w d _ 1 hxs0, hxslen]
    show (0 : ℚ) + ((if d = d then w / (60 + ((1 + p : ℕ) : ℚ)) else 0)
      + occSum 60 w d (l.drop p) (1 + p + 1)) = _
    rw [zero_add, if_pos rfl]
  rw [hL, hR, occSum_single 60 w d _ _ hcnt_ys, occSum_single 60 w d _ _ hcnt_ys]
  have t1 : w / (60 + ((1 + p : ℕ) : ℚ) + (((l.drop p).findIdx (fun c => c.1 = d) : ℕ) : ℚ))
      ≤ w / (60 + ((1 + p : ℕ) : ℚ)) := by
    apply div_den_mono _ _ _ hw
    · positivity
    · have : (0 : ℚ) ≤ (((l.drop p).findIdx (fun c => c.1 = d) : ℕ) : ℚ) := by positivity
      linarith
  have t2 : (0 : ℚ) ≤ w /
      (60 + ((1 + p + 1 : ℕ) : ℚ) + (((l.drop p).findIdx (fun c => c.1 = d) : ℕ) : ℚ)) := by
    positivity
  linarith

/-- C4: the fused score of `reciprocal_rank_fusion` (which returns the
accumulated scores sorted) is, for documents occurring at most once per
list, the sum over the lists containing the document of
`weight / (60 + rank)`; improving the document's rank in either input
list cannot decrease the fused score, and inserting a higher-ranked
duplicate of the document into either input list cannot decrease it
either. -/
theorem reciprocal_rank_fusion_monotone
    (l1 l1' l2 l2' : List (String × ℚ)) (w1 w2 : ℚ) (d : String)
    (p q : Nat) (s : ℚ) (hw1 : 0 ≤ w1) (hw2 : 0 ≤ w2) :
    (reciprocal_rank_fusion [l1, l2] 60 [w1, w2]).Perm (rrfFold [l1, l2] 60 [w1, w2]) ∧
    ((l1.map Prod.fst).count d ≤ 1 → (l2.map Prod.fst).count d ≤ 1 →
      rrfScore [l1, l2] [w1, w2] d = rankTerm l1 w1 d + rankTerm l2 w2 d) ∧
    ((l1.map Prod.fst).count d = 1 → (l1'.map Prod.fst).count d = 1 →
      l1'.findIdx (fun c => c.1 = d) ≤ l1.findIdx (fun c => c.1 = d) →
      rrfScore [l1, l2] [w1, w2] d ≤ rrfScore [l1', l2] [w1, w2] d) ∧
    ((l2.map Prod.fst).count d = 1 → (l2'.map Prod.fst).count d = 1 →
      l2'.findIdx (fun c => c.1 = d) ≤ l2.findIdx (fun c => c.1 = d) →
      rrfScore [l1, l2] [w1, w2] d ≤ rrfScore [l1, l2'] [w1, w2] d) ∧
    ((l1.map Prod.fst).count d = 1 → p ≤ l1.findIdx (fun c => c.1 = d) →
      rrfScore [l1, l2] [w1, w2] d
        ≤ rrfScore [l1.take p ++ (d, s) :: l1.drop p, l2] [w1, w2] d) ∧
    ((l2.map Prod.fst).count d = 1 → q ≤ l2.findIdx (fun c => c.1 = d) →
      rrfScore [l1, l2] [w1, w2] d
        ≤ rrfScore [l1, l2.take q ++ (d, s) :: l2.drop q] [w1, w2] d) := by
  refine ⟨List.mergeSort_perm _ _, ?_, ?_, ?_, ?_, ?_⟩
  · intro h1 h2
    rw [rrfScore_eq, occSum_rankTerm w1 d l1 h1, occSum_rankTerm w2 d l2 h2]
  · intro h1 h1' hle
    rw [rrfScore_eq, rrfScore_eq]
    exact add_le_add_right (occSum_rank_mono w1 d l1 l1' hw1 h1 h1' hle) _
  · intro h2 h2' hle
    rw [rrfScore_eq, rrfScore_eq]
    exact add_le_add_left (occSum_rank_mono w2 d l2 l2' hw2 h2 h2' hle) _
  · intro h1 hp
    rw [rrfScore_eq, rrfScore_eq]
    exact add_le_add_right (occSum_dup_mono w1 d l1 p s hw1 h1 hp) _
  · intro h2 hq
    rw [rrfScore_eq, rrfScore_eq]
    exact add_le_add_left (occSum_dup_mono w2 d l2 q s hw2 h2 hq) _

/-- C4 witness: the monotonicity theorem applied to concrete rankings. -/
theorem reciprocal_rank_fusion_monotone_witness :
    ((0 : ℚ) ≤ 1) ∧
    (([("x", (1 : ℚ))].map Prod.fst).count "x" ≤ 1 ∧
      (([("y", (1 : ℚ)), ("x", 2)].map Prod.fst).count "x" ≤ 1)) ∧
    rrfScore [[("x", (1 : ℚ))], [("y", 1), ("x", 2)]] [1, 1] "x"
      = rankTerm [("x", (1 : ℚ))] 1 "x" + rankTerm [("y", (1 : ℚ)), ("x", 2)] 1 "x" ∧
    rrfScore [[("x", (1 : ℚ))], [("y", 1), ("x", 2)]] [1, 1] "x"
      ≤ rrfScore [[("x", (1 : ℚ))], [("x", (2 : ℚ)), ("y", 1), ("x", 2)]] [1, 1] "x" :=
  ⟨by decide, ⟨by decide, by decide⟩,
   (reciprocal_rank_fusion_monotone [("x", (1 : ℚ))] [("x", (1 : ℚ))]
      [("y", 1), ("x", 2)] [("y", 1), ("x", 2)] 1 1 "x" 0 0 2
      (by decide) (by decide)).2.1 (by decide) (by decide),
   (reciprocal_rank_fusion_monotone [("x", (1 : ℚ))] [("x", (1 : ℚ))]
      [("y", 1), ("x", 2)] [("y", 1), ("x", 2)] 1 1 "x" 0 0 2
      (by decide) (by decide)).2.2.2.2.2 (by decide) (by decide)⟩
/-! ## LLM reranker (`backend/retrieval/reranker.py`, `LLMReranker.rerank`)

The Gemini call is an effect boundary: its outcome is an explicit
`Except String (List (String × Int))` input — either a raised exception
(timeouts included) carrying its message, or the parsed JSON score object
as key/value pairs. -/

/-- Configuration constants of `backend/config.py` used by the reranker. -/
def CAG_ENABLE_RERANKER : Bool := true

def RERANKER_ORIGINAL_WEIGHT : ℚ := 3 / 10

def RERANKER_LLM_WEIGHT : ℚ := 7 / 10

def RERANKER_MAX_CHUNKS : Nat := 15

/-- A retrieved chunk as the reranker sees it. -/
structure RChunkR where
  chunk_id : String
  similarity : ℚ
  deriving DecidableEq, Repr

/-- The reranker's result record (`RerankerResult`). -/
structure RerankResult where
  chunks : List RChunkR
  success : Bool
  error : Option String
  deriving DecidableEq, Repr

/-- `_parse_scores` for one chunk index: clamp the parsed integer into
1..10, default a missing entry to 5. -/
def llmScoreFor (items : List (String × Int)) (i : Nat) : Int :=
  match lookupA items (toString i) with
  | some v => max 1 (min 10 v)
  | none => 5

/-- `_compute_final_scores`: blend original similarity with the normalized
LLM score, then sort by the blended score descending (stable). -/
def rerankBlend (chunks : List RChunkR) (items : List (String × Int)) : List RChunkR :=
  (chunks.enum.map (fun ic =>
    { ic.2 with similarity :=
        RERANKER_ORIGINAL_WEIGHT * ic.2.similarity
          + RERANKER_LLM_WEIGHT * ((llmScoreFor items ic.1 : ℚ) / 10) })).mergeSort
    (fun a b => decide (b.similarity ≤ a.similarity))

/-- `LLMReranker.rerank`: disabled and empty-input early exits, the
graceful-degradation handler, and the success path (blend the first
`RERANKER_MAX_CHUNKS` chunks, append the rest unchanged). -/
def rerank (chunks : List RChunkR) (llm : Except String (List (String × Int))) :
    RerankResult :=
  if CAG_ENABLE_RERANKER = false then
    { chunks := chunks, success := false, error := some "Reranker disabled" }
  else if chunks.isEmpty then
    { chunks := [], success := true, error := none }
  else
    match llm with
    | Except.error e => { chunks := chunks, success := false, error := some e }
    | Except.ok items =>
      { chunks := rerankBlend (chunks.take RERANKER_MAX_CHUNKS) items
          ++ chunks.drop RERANKER_MAX_CHUNKS,
        success := true, error := none }

/-- C6: when the LLM call raises (or times out), `rerank` returns the input
chunks unchanged — same chunks, same order, same scores — and, whenever
there was anything to rank, reports `success = false` with the raised
message as its error string. -/
theorem rerank_error_returns_unchanged (chunks : List RChunkR) (e : String) :
    (rerank chunks (Except.error e)).chunks = chunks ∧
    (chunks ≠ [] →
      (rerank chunks (Except.error e)).success = false ∧
      (rerank chunks (Except.error e)).error = some e) := by
  cases chunks with
  | nil => exact ⟨rfl, fun h => absurd rfl h⟩
  | cons c t => exact ⟨rfl, fun _ => ⟨rfl, rfl⟩⟩

/-- C6 witness: the degradation theorem applied to a concrete chunk list and
error message. -/
theorem rerank_error_returns_unchanged_witness :
    ([({ chunk_id := "art24_s1", similarity := 1 } : RChunkR)] ≠ []) ∧
    (rerank [{ chunk_id := "art24_s1", similarity := 1 }]
        (Except.error "504 Deadline Exceeded")).chunks
      = [{ chunk_id := "art24_s1", similarity := 1 }] ∧
    (rerank [{ chunk_id := "art24_s1", similarity := 1 }]
        (Except.error "504 Deadline Exceeded")).success = false ∧
    (rerank [{ chunk_id := "art24_s1", similarity := 1 }]
        (Except.error "504 Deadline Exceeded")).error = some "504 Deadline Exceeded" :=
  ⟨by decide,
   (rerank_error_returns_unchanged [{ chunk_id := "art24_s1", similarity := 1 }]
      "504 Deadline Exceeded").1,
   ((rerank_error_returns_unchanged [{ chunk_id := "art24_s1", similarity := 1 }]
      "504 Deadline Exceeded").2 (by decide)).1,
   ((rerank_error_returns_unchanged [{ chunk_id := "art24_s1", similarity := 1 }]
      "504 Deadline Exceeded").2 (by decide)).2⟩

/-! ## Query interpreter (`backend/retrieval/query_interpreter.py`,
`get_all_search_queries`) and the angle cap of `multi_angle_retrieve`. -/

/-- The fields of `QueryInterpretation` that drive search-angle assembly. -/
structure QueryInterpretation where
  original_query : String
  hypothetical_answers : List String
  search_queries : List String
  deriving DecidableEq, Repr

/-- The append-if-new loop of `get_all_search_queries`: a candidate is added
only when non-empty (Python truthiness) and not already collected. -/
def addUniqueQueries (queries : List String) (xs : List String) : List String :=
  xs.foldl (fun acc x => if x ≠ "" ∧ x ∉ acc then acc ++ [x] else acc) queries

/-- `get_all_search_queries`: original query, then hypothetical answers,
then alternative search queries, deduplicated in that priority order. -/
def get_all_search_queries (i : QueryInterpretation) : List String :=
  addUniqueQueries (addUniqueQueries [i.original_query] i.hypothetical_answers)
    i.search_queries

/-- `MULTI_QUERY_MAX_SEARCHES` of `backend/config.py`. -/
def MULTI_QUERY_MAX_SEARCHES : Nat := 3

/-- The angle list actually used by `multi_angle_retrieve`
(`search_queries[:MULTI_QUERY_MAX_SEARCHES]`). -/
def searchQueriesUsed (i : QueryInterpretation) : List String :=
  (get_all_search_queries i).take MULTI_QUERY_MAX_SEARCHES

theorem addUniqueQueries_append (xs : List String) :
    ∀ acc, ∃ ys, ys.Sublist xs ∧ addUniqueQueries acc xs = acc ++ ys := by
  induction xs with
  | nil => intro acc; exact ⟨[], List.Sublist.refl [], by simp [addUniqueQueries]⟩
  | cons x t ih =>
    intro acc
    by_cases hc : x ≠ "" ∧ x ∉ acc
    · obtain ⟨ys, hsub, heq⟩ := ih (acc ++ [x])
      refine ⟨x :: ys, List.Sublist.cons₂ x hsub, ?_⟩
      show addUniqueQueries (if x ≠ "" ∧ x ∉ acc then acc ++ [x] else acc) t = _
      rw [if_pos hc, heq, List.append_assoc]
      rfl
    · obtain ⟨ys, hsub, heq⟩ := ih acc
      refine ⟨ys, List.Sublist.cons x hsub, ?_⟩
      show addUniqueQueries (if x ≠ "" ∧ x ∉ acc then acc ++ [x] else acc) t = _
      rw [if_neg hc, heq]

theorem addUniqueQueries_nodup (xs : List String) :
    ∀ acc, acc.Nodup → (addUniqueQueries acc xs).Nodup := by
  induction xs with
  | nil => intro acc h; exact h
  | cons x t ih =>
    intro acc h
    show (addUniqueQueries (if x ≠ "" ∧ x ∉ acc then acc ++ [x] else acc) t).Nodup
    by_cases hc : x ≠ "" ∧ x ∉ acc
    · rw [if_pos hc]
      refine ih (acc ++ [x]) ?_
      rw [List.nodup_append]
      refine ⟨h, by simp, ?_⟩
      intro a ha hax
      rw [List.mem_singleton] at hax
      subst hax
      exact hc.2 ha
    · rw [if_neg hc]
      exact ih acc h

theorem addUniqueQueries_mem (xs : List String) :
    ∀ acc q, q ∈ addUniqueQueries acc xs ↔ q ∈ acc ∨ (q ≠ "" ∧ q ∈ xs) := by
  induction xs with
  | nil => intro acc q; simp [addUniqueQueries]
  | cons x t ih =>
    intro acc q
    show q ∈ addUniqueQueries (if x ≠ "" ∧ x ∉ acc then acc ++ [x] else acc) t ↔ _
    by_cases hc : x ≠ "" ∧ x ∉ acc
    · rw [if_pos hc, ih (acc ++ [x]) q]
      obtain ⟨hx1, hx2⟩ := hc
      by_cases hqx : q = x
      · subst hqx
        simp [hx1]
      · simp only [List.mem_append, List.mem_cons, List.not_mem_nil, or_false]
        constructor
        · rintro ((hq | hq) | ⟨hne, hq⟩)
          · exact Or.inl hq
          · exact absurd hq hqx
          · exact Or.inr ⟨hne, Or.inr hq⟩
        · rintro (hq | ⟨hne, (hq | hq)⟩)
          · exact Or.inl (Or.inl hq)
          · exact absurd hq hqx
          · exact Or.inr ⟨hne, hq⟩
    · rw [if_neg hc, ih acc q]
      rw [not_and_or, not_not, not_not] at hc
      by_cases hqx : q = x
      · subst hqx
        rcases hc with hc | hc
        · subst hc
          simp
        · simp only [List.mem_cons]
          constructor
          · rintro (hq | ⟨hne, hq⟩)
            · exact Or.inl hq
            · exact Or.inr ⟨hne, Or.inr hq⟩
          · rintro (hq | ⟨hne, -⟩)
            · exact Or.inl hq
            · exact Or.inl hc
      · simp only [List.mem_cons]
        constructor
        · rintro (hq | ⟨hne, hq⟩)
          · exact Or.inl hq
          · exact Or.inr ⟨hne, Or.inr hq⟩
        · rintro (hq | ⟨hne, (hq | hq)⟩)
          · exact Or.inl hq
          · exact absurd hq hqx
          · exact Or.inr ⟨hne, hq⟩

/-- C9: the angles used are the first `MULTI_QUERY_MAX_SEARCHES` entries of
`get_all_search_queries`, which is the original query, then a subsequence of
the hypothetical answers, then a subsequence of the alternative queries,
duplicate-free, containing exactly the original query and every non-empty
hypothetical answer and alternative query. -/
theorem get_all_search_queries_spec (i : QueryInterpretation) :
    searchQueriesUsed i = (get_all_search_queries i).take MULTI_QUERY_MAX_SEARCHES ∧
    (searchQueriesUsed i).length ≤ MULTI_QUERY_MAX_SEARCHES ∧
    (get_all_search_queries i).Nodup ∧
    (∃ hs ss, hs.Sublist i.hypothetical_answers ∧ ss.Sublist i.search_queries ∧
      get_all_search_queries i = i.original_query :: (hs ++ ss)) ∧
    (∀ q, q ∈ get_all_search_queries i ↔
      (q = i.original_query ∨
        (q ≠ "" ∧ (q ∈ i.hypothetical_answers ∨ q ∈ i.search_queries)))) := by
  refine ⟨rfl, ?_, ?_, ?_, ?_⟩
  · show ((get_all_search_queries i).take MULTI_QUERY_MAX_SEARCHES).length ≤ _
    rw [List.length_take]
    exact min_le_left _ _
  · exact addUniqueQueries_nodup i.search_queries _
      (addUniqueQueries_nodup i.hypothetical_answers [i.original_query] (by simp))
  · obtain ⟨hs, hsub1, heq1⟩ :=
      addUniqueQueries_append i.hypothetical_answers [i.original_query]
    obtain ⟨ss, hsub2, heq2⟩ :=
      addUniqueQueries_append i.search_queries
        (addUniqueQueries [i.original_query] i.hypothetical_answers)
    refine ⟨hs, ss, hsub1, hsub2, ?_⟩
    show addUniqueQueries (addUniqueQueries [i.original_query] i.hypothetical_answers)
        i.search_queries = _
    rw [heq2, heq1]
    simp
  · intro q
    show q ∈ addUniqueQueries (addUniqueQueries [i.original_query] i.hypothetical_answers)
        i.search_queries ↔ _
    rw [addUniqueQueries_mem, addUniqueQueries_mem]
    simp only [List.mem_singleton]
    constructor
    · rintro ((hq | ⟨hne, hq⟩) | ⟨hne, hq⟩)
      · exact Or.inl hq
      · exact Or.inr ⟨hne, Or.inl hq⟩
      · exact Or.inr ⟨hne, Or.inr hq⟩
    · rintro (hq | ⟨hne, (hq | hq)⟩)
      · exact Or.inl (Or.inl hq)
      · exact Or.inl (Or.inr ⟨hne, hq⟩)
      · exact Or.inr ⟨hne, hq⟩

/-! ## Concept index (`backend/ingest/toc_index.py`,
`ConceptIndex.find_articles_by_concept`) -/

/-- The branch cascade of `find_articles_by_concept` for one indexed
concept: 3 for a substring match on the lowercased query, else 2 for an
exact match with a query token, else 1 for a partial token overlap. -/
def conceptBranchScore (ql : List Char) (words : List (List Char))
    (concept : List Char) : Int :=
  if containsCL ql concept then 3
  else if concept ∈ words then 2
  else if words.any (fun w => containsCL w concept || containsCL concept w) then 1
  else 0

/-- The same cascade with the word-match branch removed. -/
def conceptBranchScoreNoWord (ql : List Char) (words : List (List Char))
    (concept : List Char) : Int :=
  if containsCL ql concept then 3
  else if words.any (fun w => containsCL w concept || containsCL concept w) then 1
  else 0

/-- `article_scores[art] += p` on a `defaultdict(int)`. -/
def addScoreC (scores : List (Int × Int)) (art : Int) (p : Int) : List (Int × Int) :=
  match scores with
  | [] => [(art, p)]
  | (a, v) :: t => if a = art then (a, v + p) :: t else (a, v) :: addScoreC t art p

/-- Score accumulation for one concept and its article set. -/
def scorePassWith (branch : List Char → List (List Char) → List Char → Int)
    (ql : List Char) (words : List (List Char)) (scores : List (Int × Int))
    (concept : List Char) (arts : List Int) : List (Int × Int) :=
  let p := branch ql words concept
  if p = 0 then scores else arts.foldl (fun sc a => addScoreC sc a p) scores

/-- Score of an article in the accumulated map, 0 when absent. -/
def lookupScoreC (scores : List (Int × Int)) (a : Int) : Int :=
  match scores with
  | [] => 0
  | (a₀, v) :: t => if a₀ = a then v else lookupScoreC t a

/-- `sorted(article_scores.keys(), key=..., reverse=True)`: keys in
insertion order, stably sorted by score descending. -/
def sortScoresC (scores : List (Int × Int)) : List Int :=
  (scores.map Prod.fst).mergeSort
    (fun a b => decide (lookupScoreC scores b ≤ lookupScoreC scores a))

/-- `find_articles_by_concept`: lowercase and tokenize the query, walk the
concept index scoring each concept's articles, return the article numbers
by score descending. -/
def find_articles_by_concept (index : List (List Char × List Int))
    (query : List Char) : List Int :=
  sortScoresC (index.foldl
    (fun sc kv => scorePassWith conceptBranchScore (lowerCL query)
      (pyWords (lowerCL query)) sc kv.1 kv.2) [])

/-- The claimed equivalent variant without the word-match branch. -/
def find_articles_by_concept_noword (index : List (List Char × List Int))
    (query : List Char) : List Int :=
  sortScoresC (index.foldl
    (fun sc kv => scorePassWith conceptBranchScoreNoWord (lowerCL query)
      (pyWords (lowerCL query)) sc kv.1 kv.2) [])

theorem conceptBranchScore_noword (ql : List Char) (concept : List Char) :
    conceptBranchScore ql (pyWords ql) concept
      = conceptBranchScoreNoWord ql (pyWords ql) concept := by
  unfold conceptBranchScore conceptBranchScoreNoWord
  by_cases h3 : containsCL ql concept = true
  · rw [if_pos h3, if_pos h3]
  · rw [if_neg h3, if_neg h3]
    have h2 : concept ∉ pyWords ql := fun hmem => h3 (pyWords_mem_contains ql concept hmem)
    rw [if_neg h2]

/-- C10: the score-2 word-match branch of `find_articles_by_concept` is
unreachable — a concept equal to a whitespace token of the lowercased query
is always a character substring of it — so the function coincides with the
variant that drops that branch. -/
theorem find_articles_by_concept_word_branch_dead :
    (∀ (query concept : List Char), concept ∈ pyWords (lowerCL query) →
      containsCL (lowerCL query) concept = true) ∧
    (∀ (index : List (List Char × List Int)) (query : List Char),
      find_articles_by_concept index query
        = find_articles_by_concept_noword index query) := by
  constructor
  · intro query concept hmem
    exact pyWords_mem_contains (lowerCL query) concept hmem
  · intro index query
    unfold find_articles_by_concept find_articles_by_concept_noword
    have hfun : (fun (sc : List (Int × Int)) (kv : List Char × List Int) =>
        scorePassWith conceptBranchScore (lowerCL query) (pyWords (lowerCL query))
          sc kv.1 kv.2)
      = (fun sc kv =>
        scorePassWith conceptBranchScoreNoWord (lowerCL query) (pyWords (lowerCL query))
          sc kv.1 kv.2) := by
      funext sc kv
      unfold scorePassWith
      rw [conceptBranchScore_noword]
    rw [hfun]

/-- C10 witness: the dead-branch theorem applied to a concrete query and a
concrete two-concept index. -/
theorem find_articles_by_concept_word_branch_dead_witness :
    containsCL (lowerCL ("break time").data) ("break").data = true ∧
    find_articles_by_concept
        [(("break").data, [25]), (("vacation").data, [17])] ("Break time").data
      = find_articles_by_concept_noword
        [(("break").data, [25]), (("vacation").data, [17])] ("Break time").data :=
  ⟨find_articles_by_concept_word_branch_dead.1 ("break time").data ("break").data
      (by decide),
   find_articles_by_concept_word_branch_dead.2
      [(("break").data, [25]), (("vacation").data, [17])] ("Break time").data⟩

/-! ## Vector store search (`backend/retrieval/vector_store.py`,
`ContractVectorStore.search`)

The ChromaDB collection is an effect boundary: the collection's response is
an explicit list of raw results (chunk id, cosine distance, flattened
metadata). -/

/-- `SIMILARITY_THRESHOLD` of `backend/config.py`. -/
def SIMILARITY_THRESHOLD : ℚ := 1 / 10

/-- Flattened chunk metadata as stored in the collection (lists are
comma-joined strings; absent numbers were flattened to 0). -/
structure VMeta where
  article_num : Nat
  section_num : Nat
  applies_to : String
  topics : String
  is_high_stakes : Bool
  deriving DecidableEq, Repr

/-- One raw nearest-neighbor result from the collection. -/
structure RawResult where
  chunk_id : String
  distance : ℚ
  meta : VMeta
  deriving DecidableEq, Repr

/-- ASCII digit test (`\d` over the queries at hand). -/
def isDigitCL (c : Char) : Bool := '0' ≤ c && c ≤ '9'

/-- Split a leading digit run from a character list. -/
def takeDigits : List Char → (List Char × List Char)
  | [] => ([], [])
  | c :: cs =>
    if isDigitCL c then
      let p := takeDigits cs
      (c :: p.1, p.2)
    else ([], c :: cs)

/-- Try to match `word` then `\s*` then `\d+` at the head of `l`; on success
return the digit group and the rest of the input. -/
def tryMatchRef (word : List Char) (l : List Char) : Option (List Char × List Char) :=
  if startsWithCL word l then
    let p := takeDigits ((l.drop word.length).dropWhile isPySpace)
    if p.1.isEmpty then none else some p
  else none

/-- Fuelled scan implementing `re.findall(word + r'\s*(\d+)', text)`:
leftmost non-overlapping matches, resuming after each match. -/
def scanRefsAux (word : List Char) : Nat → List Char → List String
  | 0, _ => []
  | _ + 1, [] => []
  | fuel + 1, c :: cs =>
    match tryMatchRef word (c :: cs) with
    | some p => (⟨p.1⟩ : String) :: scanRefsAux word fuel p.2
    | none => scanRefsAux word fuel cs

/-- `re.findall(r'article\s*(\d+)', query.lower())`. -/
def article_refs (query : String) : List String :=
  scanRefsAux ("article").data (lowerCL query.data).length (lowerCL query.data)

/-- `re.findall(r'section\s*(\d+)', query.lower())`. -/
def section_refs (query : String) : List String :=
  scanRefsAux ("section").data (lowerCL query.data).length (lowerCL query.data)

/-- `search_n`: the nearest-neighbor request size —
`max(n_results * 2, 15)` only when the query carries an explicit article
reference, otherwise `n_results` itself. -/
def search_n (query : String) (n_results : Nat) : Nat :=
  if article_refs query ≠ [] then max (n_results * 2) 15 else n_results

/-- Boost stages before classification, in source order: article
reference, section reference, boosted articles. -/
def adjustPre (refsA refsS : List String) (boostArticles : Option (List Nat))
    (m : VMeta) (sim : ℚ) : ℚ :=
  let s1 := if (toString m.article_num) ∈ refsA then sim + 3 / 10 else sim
  let s2 := if (toString m.section_num) ∈ refsS then s1 + 1 / 10 else s1
  match boostArticles with
  | some bs => if m.article_num ∈ bs then s2 + 1 / 5 else s2
  | none => s2

/-- The classification stage: boost on an `applies_to` match, leave a
universal chunk alone, penalize otherwise; no classification, no change. -/
def adjustCls (classification : Option String) (m : VMeta) (x : ℚ) : ℚ :=
  match classification with
  | some c =>
    if strContains m.applies_to c then x + 15 / 100
    else if strContains m.applies_to "all" then x
    else x - 5 / 100
  | none => x

/-- Boost stages after classification: topic match, then the high-stakes
flag for high-stakes requests. -/
def adjustPost (topic urgency_tier : Option String) (m : VMeta) (x : ℚ) : ℚ :=
  let s5 := match topic with
    | some t => if strContains m.topics t then x + 15 / 100 else x
    | none => x
  if urgency_tier = some "high_stakes" ∧ m.is_high_stakes = true then s5 + 1 / 10 else s5

/-- The full additive boost cascade applied to one chunk's base similarity,
in source order: article reference, section reference, boosted articles,
classification, topic, high-stakes flag. -/
def adjustSimilarity (refsA refsS : List String) (boostArticles : Option (List Nat))
    (classification topic urgency_tier : Option String) (m : VMeta) (sim : ℚ) : ℚ :=
  adjustPost topic urgency_tier m
    (adjustCls classification m (adjustPre refsA refsS boostArticles m sim))

theorem adjustPost_shift (topic urg : Option String) (m : VMeta) (x δ : ℚ) :
    adjustPost topic urg m (x + δ) = adjustPost topic urg m x + δ := by
  unfold adjustPost
  rcases topic with _ | t
  · split_ifs <;> ring
  · by_cases ht : strContains m.topics t = true <;>
      simp only [ht, if_true, Bool.false_eq_true, if_false] <;>
      split_ifs <;> ring

/-- The candidate list of `ContractVectorStore.search` before the final
re-sort and truncation: results at or above the similarity floor, scored
with the boost cascade (the floor test uses the raw `1 - distance`). -/
def vectorCandidates (query : String) (boostArticles : Option (List Nat))
    (classification topic urgency_tier : Option String) (raw : List RawResult) :
    List (String × ℚ) :=
  (raw.filter (fun r => decide (SIMILARITY_THRESHOLD ≤ (1 : ℚ) - r.distance))).map
    (fun r => (r.chunk_id,
      adjustSimilarity (article_refs query) (section_refs query) boostArticles
        classification topic urgency_tier r.meta ((1 : ℚ) - r.distance)))

/-- `ContractVectorStore.search`: candidates re-sorted by adjusted
similarity descending and truncated to `n_results`. -/
def ContractVectorStore_search (query : String) (n_results : Nat)
    (boostArticles : Option (List Nat))
    (classification topic urgency_tier : Option String) (raw : List RawResult) :
    List (String × ℚ) :=
  ((vectorCandidates query boostArticles classification topic urgency_tier raw).mergeSort
    (fun a b => decide (b.2 ≤ a.2))).take n_results

/-- The classification boost isolated: supplying a classification shifts a
chunk's adjusted similarity by +0.15 on an `applies_to` match, 0 when
`applies_to` carries `all`, and −0.05 otherwise. -/
theorem adjust_cls_eq (refsA refsS : List String) (bs : Option (List Nat))
    (topic urg : Option String) (m : VMeta) (sim : ℚ) (c : String) :
    adjustSimilarity refsA refsS bs (some c) topic urg m sim
      = adjustSimilarity refsA refsS bs none topic urg m sim +
        (if strContains m.applies_to c then 15 / 100
         else if strContains m.applies_to "all" then 0 else -(5 / 100)) := by
  unfold adjustSimilarity
  have hcls : adjustCls (some c) m (adjustPre refsA refsS bs m sim)
      = adjustCls none m (adjustPre refsA refsS bs m sim) +
        (if strContains m.applies_to c then 15 / 100
         else if strContains m.applies_to "all" then 0 else -(5 / 100)) := by
    unfold adjustCls
    by_cases h1 : strContains m.applies_to c = true <;>
      by_cases h2 : strContains m.applies_to "all" = true <;>
      simp only [h1, h2, if_true, Bool.false_eq_true, if_false] <;>
      ring
  rw [hcls, adjustPost_shift]

/-- C5: classification is scored, never filtered — an `applies_to` match
adds 0.15, a chunk applying to neither the classification nor `all` loses
0.05, a chunk with `applies_to = "all"` is never down-weighted, and the
candidate set is identical with and without a requested classification. -/
theorem vector_search_classification_scoring
    (refsA refsS : List String) (bs : Option (List Nat)) (topic urg : Option String)
    (m : VMeta) (sim : ℚ) (c : String)
    (query : String) (raw : List RawResult) :
    (strContains m.applies_to c = true →
      adjustSimilarity refsA refsS bs (some c) topic urg m sim
        = adjustSimilarity refsA refsS bs none topic urg m sim + 15 / 100) ∧
    (strContains m.applies_to c = false → strContains m.applies_to "all" = false →
      adjustSimilarity refsA refsS bs (some c) topic urg m sim
        = adjustSimilarity refsA refsS bs none topic urg m sim - 5 / 100) ∧
    (m.applies_to = "all" →
      adjustSimilarity refsA refsS bs none topic urg m sim
        ≤ adjustSimilarity refsA refsS bs (some c) topic urg m sim) ∧
    ((vectorCandidates query bs (some c) topic urg raw).map Prod.fst
      = (vectorCandidates query bs none topic urg raw).map Prod.fst) := by
  refine ⟨?_, ?_, ?_, ?_⟩
  · intro h
    rw [adjust_cls_eq]
    simp [h]
  · intro h1 h2
    rw [adjust_cls_eq]
    simp only [h1, h2, Bool.false_eq_true, if_false]
    ring
  · intro h
    rw [adjust_cls_eq, h]
    by_cases hc : strContains "all" c = true
    · simp only [hc, if_true]
      linarith
    · simp only [hc, Bool.false_eq_true, if_false,
        (by decide : strContains "all" "all" = true), if_true, add_zero]
      exact le_refl _
  · simp [vectorCandidates, List.map_map, Function.comp]

/-- Concrete metadata records for the C5 witness. -/
def metaClerk : VMeta :=
  { article_num := 16, section_num := 40,
    applies_to := "all_purpose_clerk,courtesy_clerk",
    topics := "personal_holiday", is_high_stakes := false }

/-- C5 witness: the scoring theorem applied at an `applies_to` match. -/
theorem vector_search_classification_scoring_witness :
    strContains metaClerk.applies_to "courtesy_clerk" = true ∧
    adjustSimilarity [] [] none (some "courtesy_clerk") none none metaClerk (1 / 2)
      = adjustSimilarity [] [] none none none none metaClerk (1 / 2) + 15 / 100 :=
  ⟨by decide,
   (vector_search_classification_scoring [] [] none none none metaClerk (1 / 2)
      "courtesy_clerk" "break time" []).1 (by decide)⟩

/-- C8 counterexample: with no explicit article reference in the query, the
store requests `n_results` neighbors, not `max(n_results * 2, 15)`. -/
theorem vector_search_n_cex :
    article_refs "overtime pay" = [] ∧
    search_n "overtime pay" 5 = 5 ∧
    search_n "overtime pay" 5 ≠ max (5 * 2) 15 := by
  decide

/-- C8 (amended): the store requests `max(n_results * 2, 15)` neighbors
exactly when the query contains an explicit article reference and
`n_results` otherwise; each returned distance is converted to similarity
`1 - distance` (with no boosts requested and no references in the query,
every surviving candidate is scored exactly `1 - distance`). -/
theorem vector_search_n_amended (query : String) (k : Nat) (raw : List RawResult) :
    (article_refs query = [] → search_n query k = k) ∧
    (article_refs query ≠ [] → search_n query k = max (k * 2) 15) ∧
    (article_refs query = [] → section_refs query = [] →
      vectorCandidates query none none none none raw
        = (raw.filter (fun r => decide (SIMILARITY_THRESHOLD ≤ (1 : ℚ) - r.distance))).map
            (fun r => (r.chunk_id, (1 : ℚ) - r.distance))) := by
  refine ⟨?_, ?_, ?_⟩
  · intro h
    rw [search_n, if_neg (by simp [h])]
  · intro h
    rw [search_n, if_pos h]
  · intro h1 h2
    unfold vectorCandidates
    rw [h1, h2]
    apply List.map_congr_left
    intro r _
    simp [adjustSimilarity, adjustPre, adjustCls, adjustPost]

/-- C8 witness: the amended statement applied to queries with and without an
explicit article reference. -/
theorem vector_search_n_amended_witness :
    (article_refs "check article 2" ≠ []) ∧
    search_n "check article 2" 5 = max (5 * 2) 15 ∧
    (article_refs "overtime pay" = []) ∧
    search_n "overtime pay" 7 = 7 :=
  ⟨by decide,
   (vector_search_n_amended "check article 2" 5 []).2.1 (by decide),
   by decide,
   (vector_search_n_amended "overtime pay" 7 []).1 (by decide)⟩

/-! ## Full-article expansion (`backend/retrieval/router.py`,
`HybridRetriever._expand_to_full_article`) -/

/-- Configuration constants of `backend/config.py` for expansion. -/
def CAG_ENABLE_FULL_ARTICLE_EXPANSION : Bool := true

def FULL_ARTICLE_MAX_CHUNKS : Nat := 15

def FULL_ARTICLE_MIN_TOP_K_MATCH : Nat := 2

/-- A chunk record as the expansion code sees it. -/
structure EChunk where
  chunk_id : Option String
  citation : String
  article_num : Option Nat
  section_num : Option Nat
  subsection : Option String
  similarity : ℚ
  is_full_article_context : Bool
  winning_article : Option Nat
  deriving DecidableEq, Repr

/-- `chunk.get('chunk_id', chunk.get('citation', ''))`. -/
def chunkKey (c : EChunk) : String := c.chunk_id.getD c.citation

/-- `if article_num:` — a counted article must be present and non-zero
(Python truthiness). -/
def articleOf (c : EChunk) : Option Nat :=
  match c.article_num with
  | some n => if n = 0 then none else some n
  | none => none

/-- `Counter` increment, keys in first-touch order. -/
def addCount (acc : List (Nat × Nat)) (n : Nat) : List (Nat × Nat) :=
  match acc with
  | [] => [(n, 1)]
  | (a, k) :: t => if a = n then (a, k + 1) :: t else (a, k) :: addCount t n

/-- Article occurrence counts over the top results. -/
def countArts (top : List EChunk) : List (Nat × Nat) :=
  top.foldl (fun acc c =>
    match articleOf c with
    | some n => addCount acc n
    | none => acc) []

/-- `Counter.most_common(1)[0]`: the highest count, earliest-inserted key
winning ties. -/
def mostCommon1 (acc : List (Nat × Nat)) : Option (Nat × Nat) :=
  acc.foldl (fun best cur =>
    match best with
    | none => some cur
    | some b => if b.2 < cur.2 then some cur else some b) none

/-- `x.get('section_num') or 999` (0 and absent both fall back). -/
def secKey (c : EChunk) : Nat :=
  match c.section_num with
  | none => 999
  | some n => if n = 0 then 999 else n

/-- `x.get('subsection') or ''`. -/
def subKey (c : EChunk) : List Char := (c.subsection.getD "").data

/-- The `(section_num, subsection)` sort order of the expansion. -/
def expandKeyLe (a b : EChunk) : Bool :=
  decide (secKey a < secKey b)
    || (decide (secKey a = secKey b) && clLe (subKey a) (subKey b))

/-- Mark a fetched chunk as supplemental full-article context. -/
def markSupplemental (w : Nat) (c : EChunk) : EChunk :=
  { c with
    similarity := 2 / 5
    is_full_article_context := true
    winning_article := some w }

/-- `_expand_to_full_article(chunks, n_results)`: count articles in the
top `n_results`, and when the dominant article clears the threshold append
its not-yet-present chunks, sorted by `(section_num, subsection)`, marked
supplemental, up to the hard cap. -/
def expand_to_full_article (allChunks : List EChunk) (chunks : List EChunk)
    (n_results : Nat) : List EChunk :=
  if CAG_ENABLE_FULL_ARTICLE_EXPANSION = false ∨ chunks = [] then chunks
  else if allChunks = [] then chunks
  else
    match mostCommon1 (countArts (chunks.take n_results)) with
    | none => chunks
    | some wc =>
      if wc.2 < FULL_ARTICLE_MIN_TOP_K_MATCH then chunks
      else
        let existing := chunks.map chunkKey
        let article_chunks := (allChunks.filter (fun c =>
          decide (c.article_num = some wc.1) && decide (chunkKey c ∉ existing))).mergeSort
          expandKeyLe
        if FULL_ARTICLE_MAX_CHUNKS ≤ chunks.length then chunks
        else chunks ++
          (article_chunks.take (FULL_ARTICLE_MAX_CHUNKS - chunks.length)).map
            (markSupplemental wc.1)

theorem clLe_total : ∀ (x y : List Char), (clLe x y || clLe y x) = true := by
  intro x
  induction x with
  | nil => intro y; simp [clLe]
  | cons a as ih =>
    intro y
    cases y with
    | nil => simp [clLe]
    | cons b bs =>
      by_cases h1 : a.toNat < b.toNat
      · simp [clLe, h1]
      · by_cases h2 : b.toNat < a.toNat
        · simp [clLe, h1, h2]
        · simp [clLe, h1, h2, ih bs]

theorem clLe_trans : ∀ (x y z : List Char),
    clLe x y = true → clLe y z = true → clLe x z = true := by
  intro x
  induction x with
  | nil => intro y z _ _; rfl
  | cons a as ih =>
    intro y z hxy hyz
    cases y with
    | nil => simp [clLe] at hxy
    | cons b bs =>
      cases z with
      | nil => simp [clLe] at hyz
      | cons c cs =>
        by_cases hab : a.toNat < b.toNat
        · by_cases hbc : b.toNat < c.toNat
          · simp [clLe, Nat.lt_trans hab hbc]
          · by_cases hcb : c.toNat < b.toNat
            · simp [clLe, hbc, hcb] at hyz
            · have hbceq : b.toNat = c.toNat :=
                Nat.le_antisymm (Nat.not_lt.mp hcb) (Nat.not_lt.mp hbc)
              simp [clLe, hbceq ▸ hab]
        · by_cases hba : b.toNat < a.toNat
          · simp [clLe, hab, hba] at hxy
          · have habeq : a.toNat = b.toNat :=
              Nat.le_antisymm (Nat.not_lt.mp hba) (Nat.not_lt.mp hab)
            simp only [clLe, hab, hba, if_false] at hxy
            by_cases hbc : b.toNat < c.toNat
            · simp [clLe, habeq ▸ hbc]
            · by_cases hcb : c.toNat < b.toNat
              · simp [clLe, hbc, hcb] at hyz
              · simp only [clLe, hbc, hcb, if_false] at hyz
                have hac : ¬a.toNat < c.toNat := habeq ▸ hbc
                have hca : ¬c.toNat < a.toNat := habeq ▸ hcb
                simp [clLe, hac, hca, ih bs cs hxy hyz]

theorem expandKeyLe_total (a b : EChunk) : (expandKeyLe a b || expandKeyLe b a) = true := by
  unfold expandKeyLe
  rcases Nat.lt_trichotomy (secKey a) (secKey b) with h | h | h
  · simp [h]
  · simp [h, clLe_total]
  · simp [h, Nat.lt_asymm h]

theorem expandKeyLe_trans (a b c : EChunk)
    (hab : expandKeyLe a b = true) (hbc : expandKeyLe b c = true) :
    expandKeyLe a c = true := by
  unfold expandKeyLe at *
  simp only [Bool.or_eq_true, Bool.and_eq_true, decide_eq_true_eq] at *
  rcases hab with h1 | ⟨h1, h1l⟩ <;> rcases hbc with h2 | ⟨h2, h2l⟩
  · exact Or.inl (Nat.lt_trans h1 h2)
  · exact Or.inl (h2 ▸ h1)
  · exact Or.inl (h1 ▸ h2)
  · exact Or.inr ⟨h1.trans h2, clLe_trans _ _ _ h1l h2l⟩

/-- Case analysis of `_expand_to_full_article`: either one of the guards
fires and the input is returned as is, or the dominant article cleared the
threshold and the sorted missing chunks are appended up to the cap. -/
theorem expand_cases (allChunks chunks : List EChunk) (n_results : Nat) :
    expand_to_full_article allChunks chunks n_results = chunks ∨
    (∃ wc, mostCommon1 (countArts (chunks.take n_results)) = some wc ∧
      FULL_ARTICLE_MIN_TOP_K_MATCH ≤ wc.2 ∧
      chunks.length < FULL_ARTICLE_MAX_CHUNKS ∧
      expand_to_full_article allChunks chunks n_results
        = chunks ++ (((allChunks.filter (fun c =>
            decide (c.article_num = some wc.1)
              && decide (chunkKey c ∉ chunks.map chunkKey))).mergeSort
            expandKeyLe).take (FULL_ARTICLE_MAX_CHUNKS - chunks.length)).map
            (markSupplemental wc.1)) := by
  unfold expand_to_full_article
  by_cases h1 : CAG_ENABLE_FULL_ARTICLE_EXPANSION = false ∨ chunks = []
  · rw [if_pos h1]
    exact Or.inl rfl
  · rw [if_neg h1]
    by_cases h2 : allChunks = []
    · rw [if_pos h2]
      exact Or.inl rfl
    · rw [if_neg h2]
      cases hmc : mostCommon1 (countArts (chunks.take n_results)) with
      | none => exact Or.inl rfl
      | some wc =>
        dsimp only
        by_cases h3 : wc.2 < FULL_ARTICLE_MIN_TOP_K_MATCH
        · rw [if_pos h3]
          exact Or.inl rfl
        · rw [if_neg h3]
          by_cases h4 : FULL_ARTICLE_MAX_CHUNKS ≤ chunks.length
          · rw [if_pos h4]
            exact Or.inl rfl
          · rw [if_neg h4]
            right
            exact ⟨wc, rfl, Nat.not_lt.mp h3, Nat.not_le.mp h4, rfl⟩

/-- C7: full-article expansion never removes or reorders the existing
chunks (the input is a prefix of the output), never grows the list beyond
the hard cap (beyond what was already there), appends only chunks of the
dominant article that cleared the occurrence threshold and were not already
present, marks them supplemental at similarity 0.4, and appends them in
`(section_num, subsection)` order. -/
theorem expand_to_full_article_spec (allChunks chunks : List EChunk) (n_results : Nat) :
    chunks <+: expand_to_full_article allChunks chunks n_results ∧
    (expand_to_full_article allChunks chunks n_results).length
      ≤ max chunks.length FULL_ARTICLE_MAX_CHUNKS ∧
    ((expand_to_full_article allChunks chunks n_results).drop chunks.length).Pairwise
      (fun a b => expandKeyLe a b = true) ∧
    (∀ c ∈ (expand_to_full_article allChunks chunks n_results).drop chunks.length,
      c.similarity = 2 / 5 ∧ c.is_full_article_context = true ∧
      chunkKey c ∉ chunks.map chunkKey ∧
      ∃ wc, mostCommon1 (countArts (chunks.take n_results)) = some wc ∧
        FULL_ARTICLE_MIN_TOP_K_MATCH ≤ wc.2 ∧ c.article_num = some wc.1) := by
  rcases expand_cases allChunks chunks n_results with heq | ⟨wc, hmc, hth, hlen, heq⟩
  · rw [heq]
    refine ⟨⟨[], by simp⟩, le_max_left _ _, ?_, ?_⟩
    · rw [List.drop_length]
      exact List.Pairwise.nil
    · rw [List.drop_length]
      intro c hc
      cases hc
  · rw [heq]
    have hdrop : (chunks ++ (((allChunks.filter (fun c =>
        decide (c.article_num = some wc.1)
          && decide (chunkKey c ∉ chunks.map chunkKey))).mergeSort
        expandKeyLe).take (FULL_ARTICLE_MAX_CHUNKS - chunks.length)).map
        (markSupplemental wc.1)).drop chunks.length
        = (((allChunks.filter (fun c =>
        decide (c.article_num = some wc.1)
          && decide (chunkKey c ∉ chunks.map chunkKey))).mergeSort
        expandKeyLe).take (FULL_ARTICLE_MAX_CHUNKS - chunks.length)).map
        (markSupplemental wc.1) := List.drop_left _ _
    refine ⟨⟨_, rfl⟩, ?_, ?_, ?_⟩
    · rw [List.length_append, List.length_map, List.length_take]
      have hmin : min (FULL_ARTICLE_MAX_CHUNKS - chunks.length)
          ((allChunks.filter (fun c =>
            decide (c.article_num = some wc.1)
              && decide (chunkKey c ∉ chunks.map chunkKey))).mergeSort
            expandKeyLe).length ≤ FULL_ARTICLE_MAX_CHUNKS - chunks.length :=
        min_le_left _ _
      have : chunks.length < FULL_ARTICLE_MAX_CHUNKS := hlen
      omega
    · rw [hdrop]
      have hsorted := List.sorted_mergeSort
        (fun a b c hab hbc => expandKeyLe_trans a b c hab hbc)
        (fun a b => expandKeyLe_total a b)
        (allChunks.filter (fun c =>
          decide (c.article_num = some wc.1)
            && decide (chunkKey c ∉ chunks.map chunkKey)))
      have htake := List.Pairwise.sublist (List.take_sublist
        (FULL_ARTICLE_MAX_CHUNKS - chunks.length) _) hsorted
      rw [List.pairwise_map]
      exact htake.imp (fun h => h)
    · rw [hdrop]
      intro c hc
      obtain ⟨c₀, hc₀mem, rfl⟩ := List.mem_map.mp hc
      have hc₀sort : c₀ ∈ (allChunks.filter (fun c =>
          decide (c.article_num = some wc.1)
            && decide (chunkKey c ∉ chunks.map chunkKey))).mergeSort expandKeyLe :=
        (List.take_sublist _ _).subset hc₀mem
      have hc₀fil := List.mem_mergeSort.mp hc₀sort
      have hcond := List.of_mem_filter hc₀fil
      simp only [Bool.and_eq_true, decide_eq_true_eq] at hcond
      exact ⟨rfl, rfl, hcond.2, wc, hmc, hth, hcond.1⟩

/-- A concrete chunk for the expansion witness. -/
def eChunkA : EChunk :=
  { chunk_id := some "art16_s40", citation := "Article 16, Section 40",
    article_num := some 16, section_num := some 40, subsection := none,
    similarity := 9 / 10, is_full_article_context := false,
    winning_article := none }

/-- C7 witness: the expansion theorem applied at a concrete input (prefix
part of the conclusion). -/
theorem expand_to_full_article_spec_witness :
    [eChunkA] <+: expand_to_full_article [] [eChunkA] 5 ∧
    (expand_to_full_article [] [eChunkA] 5).length
      ≤ max [eChunkA].length FULL_ARTICLE_MAX_CHUNKS :=
  ⟨(expand_to_full_article_spec [] [eChunkA] 5).1,
   (expand_to_full_article_spec [] [eChunkA] 5).2.1⟩

/-- C9 witness: the angle-cap theorem applied to a concrete interpretation. -/
theorem get_all_search_queries_spec_witness :
    (searchQueriesUsed
        { original_query := "do i get float days?",
          hypothetical_answers := ["Employees receive one personal holiday.", ""],
          search_queries := ["personal holiday", "do i get float days?"] }).length
      ≤ MULTI_QUERY_MAX_SEARCHES ∧
    (get_all_search_queries
        { original_query := "do i get float days?",
          hypothetical_answers := ["Employees receive one personal holiday.", ""],
          search_queries := ["personal holiday", "do i get float days?"] }).Nodup :=
  ⟨(get_all_search_queries_spec
      { original_query := "do i get float days?",
        hypothetical_answers := ["Employees receive one personal holiday.", ""],
        search_queries := ["personal holiday", "do i get float days?"] }).2.1,
   (get_all_search_queries_spec
      { original_query := "do i get float days?",
        hypothetical_answers := ["Employees receive one personal holiday.", ""],
        search_queries := ["personal holiday", "do i get float days?"] }).2.2.1⟩
